import Mathlib

/-!
Verification of the focus-gate intent-classification engine.

This file gives a shallow embedding, in Lean 4, of the Go sources of the
focus-gate repository (packages `text`, `tfidf`, `forest`, `markov`, `gate`
and the `focus` command), and proves or refutes the frozen claims about it.

Modelling conventions, applied uniformly:

* Go `map[string]T` is modelled as an association list `List (String × T)`
  with first-match lookup (`alGet`), in-place replace-or-append update
  (`alSet`) and key removal (`alDel`).  Go randomizes map iteration order;
  the model iterates in list order.  No theorem below depends on the
  iteration order of a map.
* Go `float64` quantities that stay rational (term frequencies, counts,
  probabilities, configuration knobs) are modelled as `ℚ`.  The two
  transcendental library calls that feed only *ordering* decisions
  (`math.Exp` in decay scoring, `math.Log2` in IDF weighting) are modelled
  by computable rational stand-ins `expQ` and `log2Q`; no theorem in this
  file depends on their values except `expQ 0 = 1`, which agrees with the
  exact exponential.  `math.Sqrt` inside cosine similarity does matter for
  the claimed algebraic properties, so cosine similarity is valued in `ℝ`
  and uses `Real.sqrt` exactly.
* Go `time.Now()` and the random node-id generator are determinized: every
  function that reads the clock takes an explicit `now : Int` (Unix
  milliseconds) and ids are drawn from an injective counter (`idOf`), per
  the design note that id uniqueness is assumed by downstream lookups.
* The per-node vector cache of the gate memoizes the pure function
  `Engine.Vectorize`; the model uses that pure function directly.
-/

namespace FocusGate

/-! ## Association-list model of Go maps -/

/-- First-match lookup, `m[k]` with presence information. -/
def alGet {α : Type} : List (String × α) → String → Option α
  | [], _ => none
  | (k0, v0) :: rest, k => if k0 = k then some v0 else alGet rest k

/-- Lookup with default, Go's `m[k]` read of a missing key. -/
def alGetD {α : Type} (m : List (String × α)) (k : String) (d : α) : α :=
  (alGet m k).getD d

/-- Replace the first binding of `k`, or append one: Go's `m[k] = v`. -/
def alSet {α : Type} : List (String × α) → String → α → List (String × α)
  | [], k, v => [(k, v)]
  | (k0, v0) :: rest, k, v =>
    if k0 = k then (k, v) :: rest else (k0, v0) :: alSet rest k v

/-- Remove every binding of `k`: Go's `delete(m, k)` (maps have unique keys). -/
def alDel {α : Type} : List (String × α) → String → List (String × α)
  | [], _ => []
  | (k0, v0) :: rest, k =>
    if k0 = k then alDel rest k else (k0, v0) :: alDel rest k

@[simp] theorem alGet_nil {α : Type} (k : String) : alGet ([] : List (String × α)) k = none := rfl

@[simp] theorem alGet_cons {α : Type} (k0 : String) (v0 : α) (rest : List (String × α)) (k : String) :
    alGet ((k0, v0) :: rest) k = if k0 = k then some v0 else alGet rest k := rfl

theorem alGet_alSet_self {α : Type} (m : List (String × α)) (k : String) (v : α) :
    alGet (alSet m k v) k = some v := by
  induction m with
  | nil => simp [alSet]
  | cons p rest ih =>
    obtain ⟨k0, v0⟩ := p
    by_cases h : k0 = k <;> simp [alSet, h, ih]

theorem alGet_alSet_ne {α : Type} (m : List (String × α)) (k k' : String) (v : α)
    (h : k' ≠ k) : alGet (alSet m k v) k' = alGet m k' := by
  induction m with
  | nil => simp [alSet, alGet, Ne.symm h]
  | cons p rest ih =>
    obtain ⟨k0, v0⟩ := p
    by_cases h0 : k0 = k
    · subst h0
      simp [alSet, alGet, Ne.symm h, h]
    · by_cases h1 : k0 = k' <;> simp [alSet, alGet, h0, h1, ih, h]

theorem alGet_alDel_self {α : Type} (m : List (String × α)) (k : String) :
    alGet (alDel m k) k = none := by
  induction m with
  | nil => simp [alDel]
  | cons p rest ih =>
    obtain ⟨k0, v0⟩ := p
    by_cases h : k0 = k <;> simp [alDel, h, ih]

theorem alGet_alDel_ne {α : Type} (m : List (String × α)) (k k' : String)
    (h : k' ≠ k) : alGet (alDel m k) k' = alGet m k' := by
  induction m with
  | nil => simp [alDel]
  | cons p rest ih =>
    obtain ⟨k0, v0⟩ := p
    by_cases h0 : k0 = k
    · subst h0
      simp [alDel, alGet, Ne.symm h, ih, h]
    · by_cases h1 : k0 = k' <;> simp [alDel, alGet, h0, h1, ih, h]

theorem alGet_eq_none_forall_imp_nil {α : Type} (m : List (String × α))
    (h : ∀ t, alGet m t = none) : m = [] := by
  cases m with
  | nil => rfl
  | cons p rest =>
    obtain ⟨k0, v0⟩ := p
    have := h k0
    simp [alGet] at this

theorem length_alDel_le {α : Type} (m : List (String × α)) (k : String) :
    (alDel m k).length ≤ m.length := by
  induction m with
  | nil => simp [alDel]
  | cons p rest ih =>
    obtain ⟨k0, v0⟩ := p
    by_cases h : k0 = k <;> simp [alDel, h] <;> omega

theorem length_alDel_lt {α : Type} (m : List (String × α)) (k : String)
    (h : (alGet m k).isSome) : (alDel m k).length < m.length := by
  induction m with
  | nil => simp [alGet] at h
  | cons p rest ih =>
    obtain ⟨k0, v0⟩ := p
    by_cases hk : k0 = k
    · have := length_alDel_le rest k
      simp [alDel, hk]
      omega
    · simp [alGet, hk] at h
      have := ih h
      simp [alDel, hk]
      omega

/-! ## Transcendental stand-ins

`expQ` models `math.Exp` by a truncated Taylor series and `log2Q` models
`math.Log2` by the integer base-2 logarithm of the floor.  Both feed only
ordering decisions (decay-score comparison, the `idf > 0` cut-off); the sole
value relied on anywhere below is `expQ 0 = 1`, shared with the exact
exponential. -/

def expQ (x : ℚ) : ℚ :=
  (List.range 7).foldl (fun acc i => acc + x ^ i / (Nat.factorial i : ℚ)) 0

def log2Q (q : ℚ) : ℚ :=
  (Nat.log 2 ⌊q⌋₊ : ℚ)

theorem expQ_zero : expQ 0 = 1 := by
  simp [expQ, List.range_succ]

/-! ## Package `text`: tokenizer and stemmer -/

namespace Text

/-- Stop-word list, transcribed from `tokenizer.go`. -/
def stopWords : List String :=
  ["a", "an", "the", "and", "or", "but",
   "in", "on", "at", "to", "for", "of",
   "with", "by", "from", "is", "it", "as",
   "be", "was", "are", "been", "being",
   "have", "has", "had", "do", "does", "did",
   "will", "would", "could", "should", "may",
   "might", "can", "shall", "must", "this",
   "that", "these", "those", "i", "me", "my",
   "we", "our", "you", "your", "he", "she",
   "his", "her", "they", "them", "their",
   "what", "which", "who", "when", "where",
   "how", "why", "not", "no", "so", "if",
   "then", "than", "too", "very", "just",
   "about", "also", "into", "each", "all",
   "any", "some", "more", "most", "other",
   "up", "out", "its", "only", "own", "same",
   "there", "here", "am", "were", "while",
   "during", "before", "after", "above", "below",
   "between", "through", "again", "further", "once",
   "both", "such", "don", "didn", "doesn",
   "won", "isn", "aren", "wasn", "weren",
   "let", "need", "want", "like", "make",
   "think", "know", "see", "get", "got",
   "go", "going", "one", "two", "first",
   "new", "well", "now", "way", "even",
   "back", "much", "because", "thing", "things",
   "still", "us", "really", "right", "re",
   "ve", "ll", "said", "say", "use", "used"]

/-- `strings.HasSuffix`, over the character list (the positional built-in
`String.endsWith` is opaque to definitional reduction). -/
def strEndsWith (s suf : String) : Bool :=
  suf.data.isSuffixOf s.data

/-- Go's suffix-stripping slice `s[:len(s)-n]`, over the character list. -/
def strDropRight (s : String) (n : ℕ) : String :=
  ⟨s.data.take (s.data.length - n)⟩

/-- The `derivational` suffix list of `stemmer.go` (package `text`, staged
at the end of `internal/persist/persist.go`), ordered longest first for
single-pass matching, with `-er` deliberately excluded. -/
def derivational : List String :=
  ["ization", "ising", "izing", "ional",
   "ment", "ness", "less",
   "able", "ible", "tion", "sion", "ling", "ally",
   "ful", "ous", "ive", "ing", "ed", "ly"]

/-- Pass 1 of `Stem`: plural stripping with the code's length guards.
`-ies` becomes `-y` when the word is longer than 4; `-es` is stripped when
the word is longer than 4 and the preceding character is not `s`
(`word[len(word)-3] != 's'`); a trailing `-s` is stripped when the word is
longer than 3 and not ending in `ss`. -/
def stemPass1 (s : String) : String :=
  if 4 < s.data.length ∧ strEndsWith s "ies" then strDropRight s 3 ++ "y"
  else if 4 < s.data.length ∧ strEndsWith s "es" ∧
      ¬strEndsWith (strDropRight s 2) "s" then
    strDropRight s 2
  else if 3 < s.data.length ∧ strEndsWith s "s" ∧
      ¬strEndsWith (strDropRight s 1) "s" then
    strDropRight s 1
  else s

/-- Pass 2 of `Stem`: strip the first (hence longest) matching derivational
suffix, subject to the code's `len(word) > len(suf)+2` guard. -/
def stemPass2 (s : String) : String :=
  match derivational.find? (fun suf =>
      decide (suf.data.length + 2 < s.data.length) && strEndsWith s suf) with
  | some suf => strDropRight s suf.data.length
  | none => s

/-- `Stem` from `stemmer.go` (package `text`, staged at the end of
`internal/persist/persist.go`): words shorter than 4 are returned
unchanged, otherwise the plural pass is applied and then at most one
derivational suffix is stripped.  The model works over characters; on the
ASCII tokens `Tokenize` produces, Go's byte length and byte indexing
coincide with character length and indexing. -/
def Stem (s : String) : String :=
  if s.data.length < 4 then s else stemPass2 (stemPass1 s)

/-- Characters kept inside a token by `Tokenize`: letters, digits, hyphen,
underscore.  Go uses `unicode.IsLetter`/`unicode.IsDigit`; the model uses
the ASCII classifiers, which agree on all inputs appearing below. -/
def keepChar (c : Char) : Bool :=
  c.isAlpha || c.isDigit || c = '-' || c = '_'

/-- Splitter behind `strings.FieldsFunc`: maximal runs of kept characters. -/
def fieldsAux (acc : List Char) : List Char → List (List Char)
  | [] => if acc = [] then [] else [acc.reverse]
  | c :: cs =>
    if keepChar c then fieldsAux (c :: acc) cs
    else if acc = [] then fieldsAux [] cs
    else acc.reverse :: fieldsAux [] cs

/-- `Tokenize` from `tokenizer.go`: lowercase, split on everything but
letters, digits, hyphen and underscore, stem each token, then drop
stop-words and length-≤1 tokens. -/
def Tokenize (text : String) : List String :=
  if text = "" then []
  else
    let lower := text.data.map Char.toLower
    let raw := (fieldsAux [] lower).map (fun cs => String.mk cs)
    let tokens := (raw.map Stem).filter
      (fun t => 1 < t.data.length ∧ t ∉ stopWords)
    if tokens = [] then [] else tokens

/-- `TermFrequency` from `tokenizer.go`: normalized frequency per token. -/
def TermFrequency (tokens : List String) : List (String × ℚ) :=
  let tf := tokens.foldl (fun m t => alSet m t (alGetD m t 0 + 1)) []
  let n : ℚ := if tokens.length = 0 then 1 else (tokens.length : ℚ)
  tf.map (fun p => (p.1, p.2 / n))

end Text

/-! ## Package `tfidf`: incremental engine -/

namespace Tfidf

/-- `Engine` from `engine.go`: document frequencies plus document count. -/
structure Engine where
  docFreq : List (String × Int)
  totalDocs : Int
  deriving Repr, DecidableEq

/-- `NewEngine` creates the empty engine. -/
def NewEngine : Engine := ⟨[], 0⟩

/-- Loop body of `AddDocument`: each token not yet seen in this document
increments its document frequency. -/
def addTokensDF (df : List (String × Int)) (seen : List String) :
    List String → List (String × Int)
  | [] => df
  | t :: ts =>
    if t ∈ seen then addTokensDF df seen ts
    else addTokensDF (alSet df t (alGetD df t 0 + 1)) (t :: seen) ts

/-- `AddDocument` from `engine.go`. -/
def AddDocument (e : Engine) (tokens : List String) : Engine :=
  { docFreq := addTokensDF e.docFreq [] tokens
    totalDocs := e.totalDocs + 1 }

/-- Loop body of `RemoveDocument`: each token not yet seen is decremented,
and a frequency reaching zero (or below) is deleted from the table. -/
def removeTokensDF (df : List (String × Int)) (seen : List String) :
    List String → List (String × Int)
  | [] => df
  | t :: ts =>
    if t ∈ seen then removeTokensDF df seen ts
    else
      removeTokensDF
        (if alGetD df t 0 - 1 ≤ 0 then alDel df t else alSet df t (alGetD df t 0 - 1))
        (t :: seen) ts

/-- `RemoveDocument` from `engine.go`; the total count is floored at 0. -/
def RemoveDocument (e : Engine) (tokens : List String) : Engine :=
  { docFreq := removeTokensDF e.docFreq [] tokens
    totalDocs := if e.totalDocs - 1 < 0 then 0 else e.totalDocs - 1 }

/-- `IDF` from `engine.go`: smoothed inverse document frequency, zero for
unseen terms.  `math.Log2` is modelled by `log2Q`. -/
def IDF (e : Engine) (term : String) : ℚ :=
  let df := alGetD e.docFreq term 0
  if df = 0 then 0 else log2Q (1 + (e.totalDocs : ℚ) / (df : ℚ))

end Tfidf

/-! ## Claim C4 development: add/remove round-trip -/

/-- Number of documents in `docs` containing token `t`: the mathematical
document frequency the engine maintains incrementally. -/
def mcount (docs : List (List String)) (t : String) : ℕ :=
  (docs.filter (fun d => t ∈ d)).length

/-- Engine/corpus coupling invariant: the table stores exactly the positive
per-token document counts of `docs`, and the total equals the number of
documents. -/
def EngineInv (e : Tfidf.Engine) (docs : List (List String)) : Prop :=
  (∀ t, alGet e.docFreq t =
    if mcount docs t = 0 then none else some (mcount docs t : ℤ)) ∧
  e.totalDocs = (docs.length : ℤ)

/-- `AddDocument` on each of `docs`, in order. -/
def addAll (e : Tfidf.Engine) (docs : List (List String)) : Tfidf.Engine :=
  docs.foldl Tfidf.AddDocument e

/-- `RemoveDocument` on each of `docs`, in order. -/
def removeAll (e : Tfidf.Engine) (docs : List (List String)) : Tfidf.Engine :=
  docs.foldl Tfidf.RemoveDocument e

theorem addTokensDF_lookup (ts : List String) (df : List (String × Int))
    (seen : List String) (t : String) :
    alGet (Tfidf.addTokensDF df seen ts) t =
      if t ∈ ts ∧ t ∉ seen then some (alGetD df t 0 + 1) else alGet df t := by
  induction ts generalizing df seen with
  | nil => simp [Tfidf.addTokensDF]
  | cons t0 ts ih =>
    by_cases hseen : t0 ∈ seen
    · rw [Tfidf.addTokensDF, if_pos hseen, ih]
      by_cases ht : t = t0
      · subst ht
        simp [hseen]
      · simp [List.mem_cons, ht]
    · rw [Tfidf.addTokensDF, if_neg hseen, ih]
      by_cases ht : t = t0
      · rw [← ht] at hseen
        rw [← ht]
        have c1 : ¬(t ∈ ts ∧ t ∉ t :: seen) := by simp
        have c2 : t ∈ t :: ts ∧ t ∉ seen := ⟨List.mem_cons_self t ts, hseen⟩
        rw [if_neg c1, if_pos c2, alGet_alSet_self]
      · have h1 : alGet (alSet df t0 (alGetD df t0 0 + 1)) t = alGet df t :=
          alGet_alSet_ne _ _ _ _ ht
        have h2 : alGetD (alSet df t0 (alGetD df t0 0 + 1)) t 0 = alGetD df t 0 :=
          congrArg (fun o => o.getD 0) h1
        by_cases hts : t ∈ ts
        · by_cases hs2 : t ∈ seen
          · rw [if_neg (show ¬(t ∈ ts ∧ t ∉ t0 :: seen) by simp [hs2]),
                if_neg (show ¬(t ∈ t0 :: ts ∧ t ∉ seen) by simp [hs2])]
            exact h1
          · rw [if_pos (show t ∈ ts ∧ t ∉ t0 :: seen from ⟨hts, by simp [ht, hs2]⟩),
                if_pos (show t ∈ t0 :: ts ∧ t ∉ seen from ⟨by simp [hts], hs2⟩),
                h2]
        · rw [if_neg (show ¬(t ∈ ts ∧ t ∉ t0 :: seen) by simp [hts]),
              if_neg (show ¬(t ∈ t0 :: ts ∧ t ∉ seen) by simp [hts, ht])]
          exact h1

theorem removeTokensDF_lookup (ts : List String) (df : List (String × Int))
    (seen : List String) (t : String) :
    alGet (Tfidf.removeTokensDF df seen ts) t =
      if t ∈ ts ∧ t ∉ seen then
        (if alGetD df t 0 - 1 ≤ 0 then none else some (alGetD df t 0 - 1))
      else alGet df t := by
  induction ts generalizing df seen with
  | nil => simp [Tfidf.removeTokensDF]
  | cons t0 ts ih =>
    by_cases hseen : t0 ∈ seen
    · rw [Tfidf.removeTokensDF, if_pos hseen, ih]
      by_cases ht : t = t0
      · subst ht
        simp [hseen]
      · simp [List.mem_cons, ht]
    · rw [Tfidf.removeTokensDF, if_neg hseen, ih]
      by_cases ht : t = t0
      · rw [← ht] at hseen
        rw [← ht]
        have c1 : ¬(t ∈ ts ∧ t ∉ t :: seen) := by simp
        have c2 : t ∈ t :: ts ∧ t ∉ seen := ⟨List.mem_cons_self t ts, hseen⟩
        rw [if_neg c1, if_pos c2]
        by_cases hv : alGetD df t 0 - 1 ≤ 0
        · rw [if_pos hv, if_pos hv, alGet_alDel_self]
        · rw [if_neg hv, if_neg hv, alGet_alSet_self]
      · have h1 : alGet (if alGetD df t0 0 - 1 ≤ 0 then alDel df t0
            else alSet df t0 (alGetD df t0 0 - 1)) t = alGet df t := by
          by_cases hv : alGetD df t0 0 - 1 ≤ 0
          · simp only [if_pos hv]
            exact alGet_alDel_ne _ _ _ ht
          · simp only [if_neg hv]
            exact alGet_alSet_ne _ _ _ _ ht
        have h2 : alGetD (if alGetD df t0 0 - 1 ≤ 0 then alDel df t0
            else alSet df t0 (alGetD df t0 0 - 1)) t 0 = alGetD df t 0 :=
          congrArg (fun o => o.getD 0) h1
        by_cases hts : t ∈ ts
        · by_cases hs2 : t ∈ seen
          · rw [if_neg (show ¬(t ∈ ts ∧ t ∉ t0 :: seen) by simp [hs2]),
                if_neg (show ¬(t ∈ t0 :: ts ∧ t ∉ seen) by simp [hs2])]
            exact h1
          · rw [if_pos (show t ∈ ts ∧ t ∉ t0 :: seen from ⟨hts, by simp [ht, hs2]⟩),
                if_pos (show t ∈ t0 :: ts ∧ t ∉ seen from ⟨by simp [hts], hs2⟩),
                h2]
        · rw [if_neg (show ¬(t ∈ ts ∧ t ∉ t0 :: seen) by simp [hts]),
              if_neg (show ¬(t ∈ t0 :: ts ∧ t ∉ seen) by simp [hts, ht])]
          exact h1

theorem mcount_append_single (docs : List (List String)) (d : List String)
    (t : String) :
    mcount (docs ++ [d]) t = mcount docs t + (if t ∈ d then 1 else 0) := by
  by_cases h : t ∈ d <;> simp [mcount, List.filter_append, h]

theorem engineInv_add (e : Tfidf.Engine) (docs : List (List String))
    (d : List String) (h : EngineInv e docs) :
    EngineInv (Tfidf.AddDocument e d) (docs ++ [d]) := by
  obtain ⟨hdf, htot⟩ := h
  constructor
  · intro t
    show alGet (Tfidf.addTokensDF e.docFreq [] d) t = _
    rw [addTokensDF_lookup, mcount_append_single]
    by_cases hm : t ∈ d
    · have hget : alGetD e.docFreq t 0 = (mcount docs t : ℤ) := by
        unfold alGetD
        rw [hdf t]
        by_cases h0 : mcount docs t = 0 <;> simp [h0]
      simp only [hm, List.not_mem_nil, not_false_eq_true, and_self, if_pos, if_true, hget,
        if_false]
      have h1 : mcount docs t + 1 ≠ 0 := by omega
      simp [h1]
    · simp [hm, hdf t]
  · simp [Tfidf.AddDocument, htot]

theorem engineInv_addAll (docs : List (List String)) (e : Tfidf.Engine)
    (acc : List (List String)) (h : EngineInv e acc) :
    EngineInv (addAll e docs) (acc ++ docs) := by
  induction docs generalizing e acc with
  | nil => simpa [addAll] using h
  | cons d rest ih =>
    have h1 := engineInv_add e acc d h
    have h2 := ih (Tfidf.AddDocument e d) (acc ++ [d]) h1
    simpa [addAll, List.append_assoc] using h2

theorem mcount_perm {docs docs' : List (List String)}
    (h : docs.Perm docs') (t : String) : mcount docs t = mcount docs' t := by
  exact (h.filter _).length_eq

/-- Removal of one occurrence of a document, avoiding `BEq` instance
mismatches of the library `List.erase`. -/
def eraseDoc : List (List String) → List String → List (List String)
  | [], _ => []
  | d :: ds, r => if d = r then ds else d :: eraseDoc ds r

theorem perm_cons_eraseDoc {docs : List (List String)} {r : List String}
    (h : r ∈ docs) : docs.Perm (r :: eraseDoc docs r) := by
  induction docs with
  | nil => cases h
  | cons d ds ih =>
    by_cases hd : d = r
    · subst hd
      simp [eraseDoc]
    · have hr : r ∈ ds := by
        rcases List.mem_cons.mp h with h1 | h1
        · exact absurd h1.symm hd
        · exact h1
      have step1 : (d :: ds).Perm (d :: r :: eraseDoc ds r) := (ih hr).cons d
      have step2 : (d :: r :: eraseDoc ds r).Perm (r :: d :: eraseDoc ds r) :=
        List.Perm.swap r d _
      rw [eraseDoc, if_neg hd]
      exact step1.trans step2

theorem engineInv_remove (e : Tfidf.Engine) (docs : List (List String))
    (r : List String) (hmem : r ∈ docs) (h : EngineInv e docs) :
    EngineInv (Tfidf.RemoveDocument e r) (eraseDoc docs r) := by
  obtain ⟨hdf, htot⟩ := h
  have hperm : docs.Perm (r :: eraseDoc docs r) := perm_cons_eraseDoc hmem
  have hmc : ∀ t, mcount docs t =
      (if t ∈ r then 1 else 0) + mcount (eraseDoc docs r) t := by
    intro t
    rw [mcount_perm hperm t]
    by_cases ht : t ∈ r
    · simp [mcount, ht]
      omega
    · simp [mcount, ht]
  have hlen : docs.length = (eraseDoc docs r).length + 1 := by
    have := hperm.length_eq
    simpa using this
  constructor
  · intro t
    show alGet (Tfidf.removeTokensDF e.docFreq [] r) t = _
    rw [removeTokensDF_lookup]
    by_cases ht : t ∈ r
    · have hpos : mcount docs t ≠ 0 := by
        rw [hmc t]
        simp [ht]
      have hget : alGetD e.docFreq t 0 = (mcount docs t : ℤ) := by
        unfold alGetD
        rw [hdf t, if_neg hpos]
        rfl
      have hval : alGetD e.docFreq t 0 - 1 = (mcount (eraseDoc docs r) t : ℤ) := by
        rw [hget, hmc t, if_pos ht]
        push_cast
        ring
      rw [if_pos ⟨ht, List.not_mem_nil t⟩, hval]
      by_cases h0 : mcount (eraseDoc docs r) t = 0
      · simp [h0]
      · have hgt : ¬((mcount (eraseDoc docs r) t : ℤ) ≤ 0) := by omega
        simp [h0, hgt]
    · have heq : mcount (eraseDoc docs r) t = mcount docs t := by
        rw [hmc t]
        simp [ht]
      simp [ht, hdf t, heq]
  · show (if e.totalDocs - 1 < 0 then 0 else e.totalDocs - 1) = _
    rw [htot, hlen]
    push_cast
    have h1 : ¬(((eraseDoc docs r).length : ℤ) + 1 - 1 < 0) := by omega
    rw [if_neg h1]
    ring

theorem engineInv_removeAll (rem : List (List String))
    (docs : List (List String)) (e : Tfidf.Engine)
    (h : EngineInv e docs) (hperm : rem.Perm docs) :
    EngineInv (removeAll e rem) [] := by
  induction rem generalizing docs e with
  | nil =>
    have : docs = [] := hperm.symm.eq_nil
    subst this
    simpa [removeAll] using h
  | cons r rest ih =>
    have hmem : r ∈ docs := hperm.mem_iff.mp (List.mem_cons_self r rest)
    have hdocs : docs.Perm (r :: eraseDoc docs r) := perm_cons_eraseDoc hmem
    have hrest : rest.Perm (eraseDoc docs r) :=
      (hperm.trans hdocs).cons_inv
    have h1 := engineInv_remove e docs r hmem h
    have h2 := ih (eraseDoc docs r) (Tfidf.RemoveDocument e r) h1 hrest
    simpa [removeAll] using h2

/-- C4: starting from an empty TF-IDF engine, performing `AddDocument` on
each of the N token sets and then `RemoveDocument` on the same N token sets
in any order returns the engine to its initial state: the
document-frequency table is empty and the total document count is zero. -/
theorem c4_engine_add_remove_inverse (docs rem : List (List String))
    (hperm : rem.Perm docs) :
    removeAll (addAll Tfidf.NewEngine docs) rem = Tfidf.NewEngine := by
  have hinit : EngineInv Tfidf.NewEngine [] := by
    constructor
    · intro t
      simp [Tfidf.NewEngine, mcount]
    · simp [Tfidf.NewEngine]
  have hadd := engineInv_addAll docs Tfidf.NewEngine [] hinit
  simp only [List.nil_append] at hadd
  have hrem := engineInv_removeAll rem docs (addAll Tfidf.NewEngine docs) hadd hperm
  obtain ⟨hdf, htot⟩ := hrem
  have hnil : (removeAll (addAll Tfidf.NewEngine docs) rem).docFreq = [] := by
    apply alGet_eq_none_forall_imp_nil
    intro t
    have := hdf t
    simpa [mcount] using this
  cases hE : removeAll (addAll Tfidf.NewEngine docs) rem with
  | mk df tot =>
    rw [hE] at hnil htot
    simp at hnil htot
    simp [Tfidf.NewEngine, hnil, htot]

/-- Witness for C4 at a concrete corpus: three documents added and removed
in a different order. -/
theorem c4_engine_add_remove_inverse_witness :
    removeAll (addAll Tfidf.NewEngine
        [["auth", "token"], ["auth", "session"], ["database"]])
      [["database"], ["auth", "token"], ["auth", "session"]] =
      Tfidf.NewEngine :=
  c4_engine_add_remove_inverse
    [["auth", "token"], ["auth", "session"], ["database"]]
    [["database"], ["auth", "token"], ["auth", "session"]]
    (by decide)

/-! ## Additional association-list lemmas -/

theorem alGet_eq_none_iff {α : Type} (m : List (String × α)) (k : String) :
    alGet m k = none ↔ k ∉ m.map Prod.fst := by
  induction m with
  | nil => simp [alGet]
  | cons p rest ih =>
    obtain ⟨k0, v0⟩ := p
    by_cases h : k0 = k <;> simp [alGet, h, ih, Ne.symm, eq_comm]

theorem alGet_eq_some_mem {α : Type} {m : List (String × α)} {k : String} {v : α}
    (h : alGet m k = some v) : (k, v) ∈ m := by
  induction m with
  | nil => simp [alGet] at h
  | cons p rest ih =>
    obtain ⟨k0, v0⟩ := p
    by_cases hk : k0 = k
    · subst hk
      simp [alGet] at h
      simp [h]
    · simp [alGet, hk] at h
      simp [ih h]

/-- Comparator-driven insertion used to model Go's `sort.Slice`.  Go's sort
is unstable, so only the comparator-order of the result is relied upon. -/
def insertBy {α : Type} (lt : α → α → Bool) (a : α) : List α → List α
  | [] => [a]
  | b :: bs => if lt a b then a :: b :: bs else b :: insertBy lt a bs

/-- Insertion sort by a strict comparator, modelling Go's `sort.Slice`. -/
def sortBy {α : Type} (lt : α → α → Bool) : List α → List α
  | [] => []
  | a :: as => insertBy lt a (sortBy lt as)

/-! ## Package `markov`: topic-transition chain -/

namespace Markov

/-- `Transition` from `markov.go`: a predicted next topic. -/
structure Transition where
  topicID : String
  probability : ℚ
  deriving Repr, DecidableEq

/-- `Chain` from `markov.go`: sparse transition counts, per-source row totals
and the last-topic pointer. -/
structure Chain where
  counts : List (String × List (String × Int))
  totals : List (String × Int)
  lastTopic : String
  deriving Repr, DecidableEq

/-- `New` creates the empty chain. -/
def New : Chain := ⟨[], [], ""⟩

/-- `Record` from `markov.go`: no-op on empty ids, else increments
`counts[from][to]` and `totals[from]`. -/
def Record (c : Chain) (fromT toT : String) : Chain :=
  if fromT = "" ∨ toT = "" then c
  else
    { c with
      counts := alSet c.counts fromT
        (alSet (alGetD c.counts fromT []) toT
          (alGetD (alGetD c.counts fromT []) toT 0 + 1))
      totals := alSet c.totals fromT (alGetD c.totals fromT 0 + 1) }

/-- `Probability` from `markov.go`: `counts[from][to] / totals[from]`,
zero when undefined. -/
def Probability (c : Chain) (fromT toT : String) : ℚ :=
  if fromT = "" ∨ toT = "" then 0
  else
    let total : Int := alGetD c.totals fromT 0
    if total = 0 then 0
    else (Int.cast (alGetD (alGetD c.counts fromT []) toT 0) : ℚ) / (Int.cast total : ℚ)

/-- `TopTransitions` from `markov.go`: top `n` destinations sorted by
probability descending. -/
def TopTransitions (c : Chain) (fromT : String) (n : ℕ) : List Transition :=
  let row := alGetD c.counts fromT []
  if row = [] then []
  else
    let total : Int := alGetD c.totals fromT 0
    if total = 0 then []
    else
      let ts := row.map (fun p =>
        Transition.mk p.1 ((Int.cast p.2 : ℚ) / (Int.cast total : ℚ)))
      (sortBy (fun a b => a.probability > b.probability) ts).take n

/-- Inner loop of `PruneTopic`: walk the remaining rows, delete entries
destined for the topic, decrement that row's total (deleting a row that
empties and a total that reaches zero). -/
def pruneRows (topicID : String) :
    List (String × List (String × Int)) → List (String × Int) →
    List (String × List (String × Int)) × List (String × Int)
  | [], totals => ([], totals)
  | (fromT, row) :: rest, totals =>
    match alGet row topicID with
    | none =>
      let r := pruneRows topicID rest totals
      ((fromT, row) :: r.1, r.2)
    | some count =>
      let row2 := alDel row topicID
      let totals2 :=
        if alGetD totals fromT 0 - count ≤ 0 then alDel totals fromT
        else alSet totals fromT (alGetD totals fromT 0 - count)
      let r := pruneRows topicID rest totals2
      (if row2 = [] then r.1 else (fromT, row2) :: r.1, r.2)

/-- `PruneTopic` from `markov.go`: remove the topic's own outgoing row (it
exists exactly when its total is positive), scrub it from every remaining
row, and clear the last-topic pointer when it pointed there. -/
def PruneTopic (c : Chain) (topicID : String) : Chain :=
  let counts1 := if alGetD c.totals topicID 0 > 0 then alDel c.counts topicID else c.counts
  let totals1 := if alGetD c.totals topicID 0 > 0 then alDel c.totals topicID else c.totals
  let r := pruneRows topicID counts1 totals1
  { counts := r.1
    totals := r.2
    lastTopic := if c.lastTopic = topicID then "" else c.lastTopic }

/-- Sum of a row's destination counts. -/
def rowSum (row : List (String × Int)) : Int :=
  (row.map Prod.snd).sum

/-- Well-formedness of a chain, the data-model invariant of the spec: keys
are unique, rows are nonempty with positive entries, every row's stored total
equals the sum of its destination counts, and totals carry no key without a
row. -/
def ChainWF (c : Chain) : Prop :=
  (c.counts.map Prod.fst).Nodup ∧
  (c.totals.map Prod.fst).Nodup ∧
  (∀ p ∈ c.counts, p.2 ≠ [] ∧ (p.2.map Prod.fst).Nodup ∧ ∀ q ∈ p.2, 0 < q.2) ∧
  (∀ p ∈ c.counts, alGet c.totals p.1 = some (rowSum p.2)) ∧
  (∀ q ∈ c.totals, (alGet c.counts q.1).isSome)

end Markov

/-! ## Claim C6 development: PruneTopic -/

theorem alDel_sublist {α : Type} (m : List (String × α)) (k : String) :
    (alDel m k).Sublist m := by
  induction m with
  | nil => simp [alDel]
  | cons p rest ih =>
    obtain ⟨k0, v0⟩ := p
    by_cases h : k0 = k
    · simp only [alDel, if_pos h]
      exact ih.cons _
    · simp only [alDel, if_neg h]
      exact ih.cons₂ _

theorem alDel_of_not_mem {α : Type} (m : List (String × α)) (k : String)
    (h : k ∉ m.map Prod.fst) : alDel m k = m := by
  induction m with
  | nil => simp [alDel]
  | cons p rest ih =>
    obtain ⟨k0, v0⟩ := p
    simp only [List.map_cons, List.mem_cons] at h
    push_neg at h
    simp only [alDel, if_neg (Ne.symm h.1), ih h.2]

theorem rowSum_alDel (row : List (String × Int)) (k : String) (v : Int)
    (hnodup : (row.map Prod.fst).Nodup) (hget : alGet row k = some v) :
    Markov.rowSum (alDel row k) = Markov.rowSum row - v := by
  induction row with
  | nil => simp [alGet] at hget
  | cons p rest ih =>
    obtain ⟨k0, v0⟩ := p
    simp only [List.map_cons, List.nodup_cons] at hnodup
    by_cases h : k0 = k
    · subst h
      rw [alGet_cons, if_pos rfl] at hget
      have hv0 : v0 = v := by simpa using hget
      subst hv0
      rw [alDel, if_pos rfl, alDel_of_not_mem rest k0 hnodup.1]
      simp [Markov.rowSum]
    · simp only [alGet, if_neg h] at hget
      rw [alDel, if_neg h]
      simp only [Markov.rowSum, List.map_cons, List.sum_cons]
      rw [show (rest.map Prod.snd).sum = Markov.rowSum rest from rfl] at *
      rw [show ((alDel rest k).map Prod.snd).sum = Markov.rowSum (alDel rest k) from rfl]
      rw [ih hnodup.2 hget]
      ring

theorem rowSum_pos (row : List (String × Int)) (hpos : ∀ q ∈ row, 0 < q.2)
    (hne : row ≠ []) : 0 < Markov.rowSum row := by
  induction row with
  | nil => exact absurd rfl hne
  | cons p rest ih =>
    simp only [Markov.rowSum, List.map_cons, List.sum_cons]
    have hp := hpos p (List.mem_cons_self p rest)
    rcases rest with _ | ⟨q, qs⟩
    · simpa [Markov.rowSum] using hp
    · have := ih (fun q hq => hpos q (List.mem_cons_of_mem p hq)) (by simp)
      simp only [Markov.rowSum] at this
      omega

theorem pruneRows_totals_other (id : String)
    (rows : List (String × List (String × Int))) (totals : List (String × Int))
    (k : String) (hk : k ∉ rows.map Prod.fst) :
    alGet (Markov.pruneRows id rows totals).2 k = alGet totals k := by
  induction rows generalizing totals with
  | nil => simp [Markov.pruneRows]
  | cons p rest ih =>
    obtain ⟨fromT, row⟩ := p
    simp only [List.map_cons, List.mem_cons] at hk
    push_neg at hk
    obtain ⟨hk1, hk2⟩ := hk
    rw [Markov.pruneRows]
    cases hrow : alGet row id with
    | none => exact ih totals hk2
    | some count =>
      simp only
      rw [ih _ hk2]
      by_cases hv : alGetD totals fromT 0 - count ≤ 0
      · rw [if_pos hv, alGet_alDel_ne _ _ _ hk1]
      · rw [if_neg hv, alGet_alSet_ne _ _ _ _ hk1]

theorem pruneRows_keys_sub (id : String)
    (rows : List (String × List (String × Int))) (totals : List (String × Int)) :
    ∀ p ∈ (Markov.pruneRows id rows totals).1, p.1 ∈ rows.map Prod.fst := by
  induction rows generalizing totals with
  | nil => simp [Markov.pruneRows]
  | cons hd rest ih =>
    obtain ⟨fromT, row⟩ := hd
    intro p hp
    rw [Markov.pruneRows] at hp
    cases hrow : alGet row id with
    | none =>
      rw [hrow] at hp
      simp only [List.mem_cons] at hp
      rcases hp with hp | hp
      · subst hp
        simp
      · simpa using Or.inr (ih totals p hp)
    | some count =>
      rw [hrow] at hp
      simp only at hp
      by_cases hempty : alDel row id = []
      · rw [if_pos hempty] at hp
        simpa using Or.inr (ih _ p hp)
      · rw [if_neg hempty] at hp
        simp only [List.mem_cons] at hp
        rcases hp with hp | hp
        · subst hp
          simp
        · simpa using Or.inr (ih _ p hp)

theorem pruneRows_spec (id : String)
    (rows : List (String × List (String × Int))) (totals : List (String × Int))
    (hnodup : (rows.map Prod.fst).Nodup)
    (hrows : ∀ p ∈ rows, p.2 ≠ [] ∧ (p.2.map Prod.fst).Nodup ∧ ∀ q ∈ p.2, 0 < q.2)
    (hmatch : ∀ p ∈ rows, alGet totals p.1 = some (Markov.rowSum p.2)) :
    ∀ p ∈ (Markov.pruneRows id rows totals).1,
      alGet p.2 id = none ∧ p.2 ≠ [] ∧ (p.2.map Prod.fst).Nodup ∧
      (∀ q ∈ p.2, 0 < q.2) ∧
      alGet (Markov.pruneRows id rows totals).2 p.1 = some (Markov.rowSum p.2) := by
  induction rows generalizing totals with
  | nil => simp [Markov.pruneRows]
  | cons hd rest ih =>
    obtain ⟨fromT, row⟩ := hd
    simp only [List.map_cons, List.nodup_cons] at hnodup
    obtain ⟨hf, hnodup⟩ := hnodup
    obtain ⟨hrne, hrnd, hrpos⟩ := hrows (fromT, row) (List.mem_cons_self _ _)
    have hrows2 : ∀ p ∈ rest, p.2 ≠ [] ∧ (p.2.map Prod.fst).Nodup ∧ ∀ q ∈ p.2, 0 < q.2 :=
      fun p hp => hrows p (List.mem_cons_of_mem _ hp)
    have hgetTot : alGet totals fromT = some (Markov.rowSum row) :=
      hmatch (fromT, row) (List.mem_cons_self _ _)
    have hgetTotD : alGetD totals fromT 0 = Markov.rowSum row := by
      simp [alGetD, hgetTot]
    intro p hp
    rw [Markov.pruneRows] at hp ⊢
    cases hrow : alGet row id with
    | none =>
      rw [hrow] at hp
      dsimp only at hp ⊢
      simp only [List.mem_cons] at hp
      have hmatch2 : ∀ p ∈ rest, alGet totals p.1 = some (Markov.rowSum p.2) :=
        fun p hp => hmatch p (List.mem_cons_of_mem _ hp)
      rcases hp with hp | hp
      · subst hp
        refine ⟨hrow, hrne, hrnd, hrpos, ?_⟩
        rw [pruneRows_totals_other id rest totals fromT hf]
        exact hgetTot
      · obtain ⟨h1, h2, h3, h4, h5⟩ := ih totals hnodup hrows2 hmatch2 p hp
        exact ⟨h1, h2, h3, h4, h5⟩
    | some count =>
      rw [hrow] at hp
      dsimp only at hp ⊢
      have hsum2 : Markov.rowSum (alDel row id) = Markov.rowSum row - count :=
        rowSum_alDel row id count hrnd hrow
      have hval : alGetD totals fromT 0 - count = Markov.rowSum (alDel row id) := by
        rw [hgetTotD, hsum2]
      have hpos2 : ∀ q ∈ alDel row id, 0 < q.2 :=
        fun q hq => hrpos q ((alDel_sublist row id).mem hq)
      have hnd2 : ((alDel row id).map Prod.fst).Nodup :=
        hrnd.sublist ((alDel_sublist row id).map Prod.fst)
      have hmatch2 : ∀ p ∈ rest, alGet
          (if alGetD totals fromT 0 - count ≤ 0 then alDel totals fromT
            else alSet totals fromT (alGetD totals fromT 0 - count)) p.1 =
          some (Markov.rowSum p.2) := by
        intro p hp2
        have hne : p.1 ≠ fromT := by
          intro heq
          exact hf (heq ▸ (List.mem_map_of_mem Prod.fst hp2))
        by_cases hv : alGetD totals fromT 0 - count ≤ 0
        · rw [if_pos hv, alGet_alDel_ne _ _ _ hne]
          exact hmatch p (List.mem_cons_of_mem _ hp2)
        · rw [if_neg hv, alGet_alSet_ne _ _ _ _ hne]
          exact hmatch p (List.mem_cons_of_mem _ hp2)
      by_cases hempty : alDel row id = []
      · rw [if_pos hempty] at hp
        have hv : alGetD totals fromT 0 - count ≤ 0 := by
          rw [hval, hempty]
          simp [Markov.rowSum]
        rw [if_pos hv] at hp hmatch2 ⊢
        exact ih _ hnodup hrows2 hmatch2 p hp
      · rw [if_neg hempty] at hp
        have hv : ¬(alGetD totals fromT 0 - count ≤ 0) := by
          rw [hval]
          have := rowSum_pos (alDel row id) hpos2 hempty
          omega
        rw [if_neg hv] at hp hmatch2 ⊢
        simp only [List.mem_cons] at hp
        rcases hp with hp | hp
        · subst hp
          refine ⟨alGet_alDel_self row id, hempty, hnd2, hpos2, ?_⟩
          rw [pruneRows_totals_other id rest _ fromT hf,
            alGet_alSet_self, hval]
        · exact ih _ hnodup hrows2 hmatch2 p hp

theorem alGet_isSome_of_mem_keys {α : Type} {m : List (String × α)} {k : String}
    (h : k ∈ m.map Prod.fst) : (alGet m k).isSome := by
  cases hg : alGet m k with
  | some v => rfl
  | none => exact absurd ((alGet_eq_none_iff m k).mp hg) (not_not_intro h)

/-- C6: after `PruneTopic id` on a well-formed chain (the spec's data-model
invariant: row totals equal the sum of the row's destination counts, keys
unique, entries positive), no counts row is keyed by `id`, no surviving row
contains an entry destined for `id`, every surviving row's stored total
equals the sum of its remaining destination counts with emptied rows and
zeroed totals deleted, and the last-topic pointer is cleared iff it equaled
`id`. -/
theorem c6_pruneTopic_scrubs_topic (c : Markov.Chain) (id : String)
    (hwf : Markov.ChainWF c) :
    alGet (Markov.PruneTopic c id).counts id = none ∧
    alGet (Markov.PruneTopic c id).totals id = none ∧
    (∀ p ∈ (Markov.PruneTopic c id).counts,
      alGet p.2 id = none ∧ p.2 ≠ [] ∧
      alGet (Markov.PruneTopic c id).totals p.1 = some (Markov.rowSum p.2)) ∧
    (Markov.PruneTopic c id).lastTopic =
      (if c.lastTopic = id then "" else c.lastTopic) := by
  obtain ⟨hcN, htN, hrows, hmatch, honly⟩ := hwf
  have hidkeys : id ∉ (if alGetD c.totals id 0 > 0 then alDel c.counts id
      else c.counts).map Prod.fst := by
    by_cases hpos : alGetD c.totals id 0 > 0
    · rw [if_pos hpos]
      exact (alGet_eq_none_iff _ id).mp (alGet_alDel_self c.counts id)
    · rw [if_neg hpos]
      intro hmem
      obtain ⟨row, hrow⟩ := Option.isSome_iff_exists.mp (alGet_isSome_of_mem_keys hmem)
      have hmemrow : (id, row) ∈ c.counts := alGet_eq_some_mem hrow
      have hm := hmatch (id, row) hmemrow
      obtain ⟨hne, _, hposrow⟩ := hrows (id, row) hmemrow
      have : 0 < Markov.rowSum row := rowSum_pos row hposrow hne
      have : alGetD c.totals id 0 = Markov.rowSum row := by simp [alGetD, hm]
      omega
  have htot1 : alGet (if alGetD c.totals id 0 > 0 then alDel c.totals id
      else c.totals) id = none := by
    by_cases hpos : alGetD c.totals id 0 > 0
    · rw [if_pos hpos]
      exact alGet_alDel_self c.totals id
    · rw [if_neg hpos]
      cases hg : alGet c.totals id with
      | none => rfl
      | some v =>
        have hmem : (id, v) ∈ c.totals := alGet_eq_some_mem hg
        obtain ⟨row, hrow⟩ := Option.isSome_iff_exists.mp (honly (id, v) hmem)
        have hmemrow : (id, row) ∈ c.counts := alGet_eq_some_mem hrow
        have hm := hmatch (id, row) hmemrow
        obtain ⟨hne, _, hposrow⟩ := hrows (id, row) hmemrow
        have : 0 < Markov.rowSum row := rowSum_pos row hposrow hne
        have : alGetD c.totals id 0 = Markov.rowSum row := by simp [alGetD, hm]
        omega
  have hmem1 : ∀ p ∈ (if alGetD c.totals id 0 > 0 then alDel c.counts id
      else c.counts), p ∈ c.counts := by
    intro p hp
    by_cases hpos : alGetD c.totals id 0 > 0
    · rw [if_pos hpos] at hp
      exact (alDel_sublist c.counts id).mem hp
    · rw [if_neg hpos] at hp
      exact hp
  have hnodup1 : ((if alGetD c.totals id 0 > 0 then alDel c.counts id
      else c.counts).map Prod.fst).Nodup := by
    by_cases hpos : alGetD c.totals id 0 > 0
    · rw [if_pos hpos]
      exact hcN.sublist ((alDel_sublist c.counts id).map Prod.fst)
    · rw [if_neg hpos]
      exact hcN
  have hmatch1 : ∀ p ∈ (if alGetD c.totals id 0 > 0 then alDel c.counts id
      else c.counts), alGet (if alGetD c.totals id 0 > 0 then alDel c.totals id
      else c.totals) p.1 = some (Markov.rowSum p.2) := by
    intro p hp
    have hpm := hmem1 p hp
    have hne : p.1 ≠ id := by
      intro heq
      have hmm := List.mem_map_of_mem Prod.fst hp
      rw [heq] at hmm
      exact hidkeys hmm
    by_cases hpos : alGetD c.totals id 0 > 0
    · rw [if_pos hpos, alGet_alDel_ne _ _ _ hne]
      exact hmatch p hpm
    · rw [if_neg hpos]
      exact hmatch p hpm
  have hrows1 : ∀ p ∈ (if alGetD c.totals id 0 > 0 then alDel c.counts id
      else c.counts), p.2 ≠ [] ∧ (p.2.map Prod.fst).Nodup ∧ ∀ q ∈ p.2, 0 < q.2 :=
    fun p hp => hrows p (hmem1 p hp)
  have hspec := pruneRows_spec id _ _ hnodup1 hrows1 hmatch1
  refine ⟨?_, ?_, ?_, rfl⟩
  · show alGet (Markov.pruneRows id _ _).1 id = none
    apply (alGet_eq_none_iff _ id).mpr
    intro hmem
    obtain ⟨p, hp, hp1⟩ := List.mem_map.mp hmem
    have := pruneRows_keys_sub id _ _ p hp
    rw [hp1] at this
    exact hidkeys this
  · show alGet (Markov.pruneRows id _ _).2 id = none
    rw [pruneRows_totals_other id _ _ id hidkeys]
    exact htot1
  · intro p hp
    have hp2 : p ∈ (Markov.pruneRows id
        (if alGetD c.totals id 0 > 0 then alDel c.counts id else c.counts)
        (if alGetD c.totals id 0 > 0 then alDel c.totals id else c.totals)).1 := hp
    obtain ⟨h1, h2, _, _, h5⟩ := hspec p hp2
    exact ⟨h1, h2, h5⟩

/-- Witness for C6 at a concrete well-formed chain: prunes topic `B` from a
chain with rows for `A` and `B` and last topic `B`. -/
theorem c6_pruneTopic_scrubs_topic_witness :
    Markov.ChainWF ⟨[("A", [("B", 2), ("C", 1)]), ("B", [("A", 1), ("C", 1)])],
      [("A", 3), ("B", 2)], "B"⟩ ∧
    (∀ p ∈ (Markov.PruneTopic ⟨[("A", [("B", 2), ("C", 1)]), ("B", [("A", 1), ("C", 1)])],
        [("A", 3), ("B", 2)], "B"⟩ "B").counts,
      alGet p.2 "B" = none) := by
  have h := c6_pruneTopic_scrubs_topic
    ⟨[("A", [("B", 2), ("C", 1)]), ("B", [("A", 1), ("C", 1)])],
      [("A", 3), ("B", 2)], "B"⟩ "B" (by unfold Markov.ChainWF; decide)
  exact ⟨by unfold Markov.ChainWF; decide, fun p hp => (h.2.2.1 p hp).1⟩

/-! ## Package `tfidf`: sparse vectors and cosine similarity

A `Term` (word, weight) is modelled as a pair `String × ℚ`; weights are the
rational TF×IDF products of the model.  Cosine similarity is valued in `ℝ`
because `math.Sqrt` is exact there and the claimed algebraic properties
depend on it. -/

namespace Tfidf

/-- A sparse vector: term-weight pairs, sorted by word by construction. -/
abbrev Vector := List (String × ℚ)

/-- `NewVector` from `vector.go`: empty map gives the nil vector, else the
entries sorted by word. -/
def NewVector (weights : List (String × ℚ)) : Vector :=
  if weights = [] then [] else sortBy (fun a b => a.1 < b.1) weights

/-- The single merge-join loop of `CosineSimilarity`, returning
(dot-product, squared norm of `a`, squared norm of `b`); the two trailing
drain loops are the one-sided cases. -/
def mergeCosine : List (String × ℚ) → List (String × ℚ) → ℚ × ℚ × ℚ
  | [], [] => (0, 0, 0)
  | [], y :: ys =>
    let r := mergeCosine [] ys
    (r.1, r.2.1, r.2.2 + y.2 * y.2)
  | x :: xs, [] =>
    let r := mergeCosine xs []
    (r.1, r.2.1 + x.2 * x.2, r.2.2)
  | x :: xs, y :: ys =>
    if x.1 = y.1 then
      let r := mergeCosine xs ys
      (r.1 + x.2 * y.2, r.2.1 + x.2 * x.2, r.2.2 + y.2 * y.2)
    else if x.1 < y.1 then
      let r := mergeCosine xs (y :: ys)
      (r.1, r.2.1 + x.2 * x.2, r.2.2)
    else
      let r := mergeCosine (x :: xs) ys
      (r.1, r.2.1, r.2.2 + y.2 * y.2)
  termination_by a b => a.length + b.length

/-- `CosineSimilarity` from `vector.go`: 0 when either vector is empty or
the denominator vanishes, else dot over the product of norms. -/
noncomputable def CosineSimilarity (a b : Vector) : ℝ :=
  if a = [] ∨ b = [] then 0
  else
    let r := mergeCosine a b
    let denom := Real.sqrt ((r.2.1 : ℚ) : ℝ) * Real.sqrt ((r.2.2 : ℚ) : ℝ)
    if denom = 0 then 0 else ((r.1 : ℚ) : ℝ) / denom

/-- Sum of squared weights: the mathematical reading of the norm
accumulators. -/
def sumSq (l : List (String × ℚ)) : ℚ :=
  (l.map (fun p => p.2 * p.2)).sum

end Tfidf

/-! ## Claim C7 development: cosine similarity algebra -/

theorem sumSq_nonneg (l : List (String × ℚ)) : 0 ≤ Tfidf.sumSq l := by
  induction l with
  | nil => simp [Tfidf.sumSq]
  | cons p rest ih =>
    simp only [Tfidf.sumSq, List.map_cons, List.sum_cons]
    have := mul_self_nonneg p.2
    simp only [Tfidf.sumSq] at ih
    linarith

theorem mergeCosine_nil_nil :
    Tfidf.mergeCosine [] [] = ((0 : ℚ), (0 : ℚ), (0 : ℚ)) := by
  rw [Tfidf.mergeCosine.eq_def]

theorem mergeCosine_nil_cons (y : String × ℚ) (ys : List (String × ℚ)) :
    Tfidf.mergeCosine [] (y :: ys) =
      ((Tfidf.mergeCosine [] ys).1, (Tfidf.mergeCosine [] ys).2.1,
       (Tfidf.mergeCosine [] ys).2.2 + y.2 * y.2) := by
  rw [Tfidf.mergeCosine.eq_def]

theorem mergeCosine_cons_nil (x : String × ℚ) (xs : List (String × ℚ)) :
    Tfidf.mergeCosine (x :: xs) [] =
      ((Tfidf.mergeCosine xs []).1, (Tfidf.mergeCosine xs []).2.1 + x.2 * x.2,
       (Tfidf.mergeCosine xs []).2.2) := by
  rw [Tfidf.mergeCosine.eq_def]

theorem mergeCosine_cons_cons (x y : String × ℚ) (xs ys : List (String × ℚ)) :
    Tfidf.mergeCosine (x :: xs) (y :: ys) =
      if x.1 = y.1 then
        ((Tfidf.mergeCosine xs ys).1 + x.2 * y.2,
         (Tfidf.mergeCosine xs ys).2.1 + x.2 * x.2,
         (Tfidf.mergeCosine xs ys).2.2 + y.2 * y.2)
      else if x.1 < y.1 then
        ((Tfidf.mergeCosine xs (y :: ys)).1,
         (Tfidf.mergeCosine xs (y :: ys)).2.1 + x.2 * x.2,
         (Tfidf.mergeCosine xs (y :: ys)).2.2)
      else
        ((Tfidf.mergeCosine (x :: xs) ys).1,
         (Tfidf.mergeCosine (x :: xs) ys).2.1,
         (Tfidf.mergeCosine (x :: xs) ys).2.2 + y.2 * y.2) := by
  rw [Tfidf.mergeCosine.eq_def]

theorem mergeCosine_norms (a b : List (String × ℚ)) :
    (Tfidf.mergeCosine a b).2.1 = Tfidf.sumSq a ∧
    (Tfidf.mergeCosine a b).2.2 = Tfidf.sumSq b := by
  induction a, b using Tfidf.mergeCosine.induct with
  | case1 => simp [mergeCosine_nil_nil, Tfidf.sumSq]
  | case2 y ys ih =>
    rw [mergeCosine_nil_cons]
    simp only [Tfidf.sumSq, List.map_cons, List.sum_cons] at *
    exact ⟨ih.1, by rw [ih.2]; ring⟩
  | case3 x xs ih =>
    rw [mergeCosine_cons_nil]
    simp only [Tfidf.sumSq, List.map_cons, List.sum_cons] at *
    exact ⟨by rw [ih.1]; ring, ih.2⟩
  | case4 x xs y ys heq ih =>
    rw [mergeCosine_cons_cons, if_pos heq]
    simp only [Tfidf.sumSq, List.map_cons, List.sum_cons] at *
    exact ⟨by rw [ih.1]; ring, by rw [ih.2]; ring⟩
  | case5 x xs y ys heq hlt ih =>
    rw [mergeCosine_cons_cons, if_neg heq, if_pos hlt]
    simp only [Tfidf.sumSq, List.map_cons, List.sum_cons] at *
    exact ⟨by rw [ih.1]; ring, ih.2⟩
  | case6 x xs y ys heq hlt ih =>
    rw [mergeCosine_cons_cons, if_neg heq, if_neg hlt]
    simp only [Tfidf.sumSq, List.map_cons, List.sum_cons] at *
    exact ⟨ih.1, by rw [ih.2]; ring⟩

theorem mergeCosine_swap (a b : List (String × ℚ)) :
    Tfidf.mergeCosine b a =
      ((Tfidf.mergeCosine a b).1,
       (Tfidf.mergeCosine a b).2.2,
       (Tfidf.mergeCosine a b).2.1) := by
  induction a, b using Tfidf.mergeCosine.induct with
  | case1 => rw [mergeCosine_nil_nil]
  | case2 y ys ih =>
    rw [mergeCosine_cons_nil, mergeCosine_nil_cons, ih]
  | case3 x xs ih =>
    rw [mergeCosine_nil_cons, mergeCosine_cons_nil, ih]
  | case4 x xs y ys heq ih =>
    rw [mergeCosine_cons_cons, if_pos heq.symm,
      mergeCosine_cons_cons, if_pos heq, ih]
    dsimp only
    rw [mul_comm y.2 x.2]
  | case5 x xs y ys heq hlt ih =>
    rw [mergeCosine_cons_cons,
      if_neg (fun h => heq h.symm), if_neg (lt_asymm hlt),
      mergeCosine_cons_cons, if_neg heq, if_pos hlt, ih]
  | case6 x xs y ys heq hlt ih =>
    have hgt : y.1 < x.1 := by
      rcases lt_trichotomy x.1 y.1 with h | h | h
      · exact absurd h hlt
      · exact absurd h heq
      · exact h
    rw [mergeCosine_cons_cons,
      if_neg (fun h => heq h.symm), if_pos hgt,
      mergeCosine_cons_cons, if_neg heq, if_neg hlt, ih]

theorem mergeCosine_dot_sq_le (a b : List (String × ℚ)) :
    (Tfidf.mergeCosine a b).1 ^ 2 ≤
      (Tfidf.mergeCosine a b).2.1 * (Tfidf.mergeCosine a b).2.2 := by
  induction a, b using Tfidf.mergeCosine.induct with
  | case1 => simp [mergeCosine_nil_nil]
  | case2 y ys ih =>
    rw [mergeCosine_nil_cons]
    have hnn : 0 ≤ (Tfidf.mergeCosine ([] : List (String × ℚ)) ys).2.1 := by
      rw [(mergeCosine_norms ([] : List (String × ℚ)) ys).1]
      exact sumSq_nonneg _
    dsimp only
    nlinarith [mul_self_nonneg y.2]
  | case3 x xs ih =>
    rw [mergeCosine_cons_nil]
    have hnn : 0 ≤ (Tfidf.mergeCosine xs ([] : List (String × ℚ))).2.2 := by
      rw [(mergeCosine_norms xs ([] : List (String × ℚ))).2]
      exact sumSq_nonneg _
    dsimp only
    nlinarith [mul_self_nonneg x.2]
  | case4 x xs y ys heq ih =>
    rw [mergeCosine_cons_cons, if_pos heq]
    have hna : 0 ≤ (Tfidf.mergeCosine xs ys).2.1 := by
      rw [(mergeCosine_norms xs ys).1]
      exact sumSq_nonneg _
    have hnb : 0 ≤ (Tfidf.mergeCosine xs ys).2.2 := by
      rw [(mergeCosine_norms xs ys).2]
      exact sumSq_nonneg _
    dsimp only
    set d : ℚ := (Tfidf.mergeCosine xs ys).1 with hdd
    set na : ℚ := (Tfidf.mergeCosine xs ys).2.1 with hdna
    set nb : ℚ := (Tfidf.mergeCosine xs ys).2.2 with hdnb
    have hsub : 0 ≤ na * nb - d ^ 2 := sub_nonneg.mpr ih
    rcases eq_or_lt_of_le hna with hna0 | hna0
    · have hd0 : d = 0 := by
        have : d ^ 2 ≤ 0 := by nlinarith
        nlinarith [sq_nonneg d]
      rw [hd0, ← hna0]
      nlinarith [mul_self_nonneg x.2, mul_self_nonneg y.2,
        mul_nonneg (mul_self_nonneg x.2) hnb]
    · nlinarith [mul_nonneg hna0.le hsub, sq_nonneg (na * y.2 - d * x.2),
        mul_nonneg (mul_self_nonneg x.2) hsub]
  | case5 x xs y ys heq hlt ih =>
    rw [mergeCosine_cons_cons, if_neg heq, if_pos hlt]
    have hnb : 0 ≤ (Tfidf.mergeCosine xs (y :: ys)).2.2 := by
      rw [(mergeCosine_norms xs (y :: ys)).2]
      exact sumSq_nonneg _
    dsimp only
    nlinarith [mul_self_nonneg x.2]
  | case6 x xs y ys heq hlt ih =>
    rw [mergeCosine_cons_cons, if_neg heq, if_neg hlt]
    have hna : 0 ≤ (Tfidf.mergeCosine (x :: xs) ys).2.1 := by
      rw [(mergeCosine_norms (x :: xs) ys).1]
      exact sumSq_nonneg _
    dsimp only
    nlinarith [mul_self_nonneg y.2]

theorem mergeCosine_dot_nonneg (a b : List (String × ℚ))
    (ha : ∀ p ∈ a, 0 ≤ p.2) (hb : ∀ p ∈ b, 0 ≤ p.2) :
    0 ≤ (Tfidf.mergeCosine a b).1 := by
  induction a, b using Tfidf.mergeCosine.induct with
  | case1 => simp [mergeCosine_nil_nil]
  | case2 y ys ih =>
    rw [mergeCosine_nil_cons]
    exact ih ha (fun p hp => hb p (List.mem_cons_of_mem _ hp))
  | case3 x xs ih =>
    rw [mergeCosine_cons_nil]
    exact ih (fun p hp => ha p (List.mem_cons_of_mem _ hp)) hb
  | case4 x xs y ys heq ih =>
    rw [mergeCosine_cons_cons, if_pos heq]
    have hx := ha x (List.mem_cons_self _ _)
    have hy := hb y (List.mem_cons_self _ _)
    have := ih (fun p hp => ha p (List.mem_cons_of_mem _ hp))
      (fun p hp => hb p (List.mem_cons_of_mem _ hp))
    dsimp only
    nlinarith
  | case5 x xs y ys heq hlt ih =>
    rw [mergeCosine_cons_cons, if_neg heq, if_pos hlt]
    exact ih (fun p hp => ha p (List.mem_cons_of_mem _ hp)) hb
  | case6 x xs y ys heq hlt ih =>
    rw [mergeCosine_cons_cons, if_neg heq, if_neg hlt]
    exact ih ha (fun p hp => hb p (List.mem_cons_of_mem _ hp))

theorem mergeCosine_self (v : List (String × ℚ)) :
    Tfidf.mergeCosine v v = (Tfidf.sumSq v, Tfidf.sumSq v, Tfidf.sumSq v) := by
  induction v with
  | nil => simp [mergeCosine_nil_nil, Tfidf.sumSq]
  | cons p rest ih =>
    rw [mergeCosine_cons_cons, if_pos rfl, ih]
    simp only [Tfidf.sumSq, List.map_cons, List.sum_cons]
    refine Prod.ext ?_ (Prod.ext ?_ ?_) <;> dsimp only <;> ring

theorem mergeCosine_dot_disjoint (a b : List (String × ℚ))
    (h : ∀ t ∈ a.map Prod.fst, t ∉ b.map Prod.fst) :
    (Tfidf.mergeCosine a b).1 = 0 := by
  induction a, b using Tfidf.mergeCosine.induct with
  | case1 => rw [mergeCosine_nil_nil]
  | case2 y ys ih =>
    rw [mergeCosine_nil_cons]
    exact ih (by simp)
  | case3 x xs ih =>
    rw [mergeCosine_cons_nil]
    exact ih (by simp)
  | case4 x xs y ys heq ih =>
    exact absurd heq (by
      have := h x.1 (by simp)
      simp only [List.map_cons, List.mem_cons] at this
      push_neg at this
      exact this.1)
  | case5 x xs y ys heq hlt ih =>
    rw [mergeCosine_cons_cons, if_neg heq, if_pos hlt]
    refine ih ?_
    intro t ht
    exact h t (by simp only [List.map_cons, List.mem_cons]; exact Or.inr ht)
  | case6 x xs y ys heq hlt ih =>
    rw [mergeCosine_cons_cons, if_neg heq, if_neg hlt]
    refine ih ?_
    intro t ht hmem
    have := h t ht
    simp only [List.map_cons, List.mem_cons] at this
    push_neg at this
    exact this.2 hmem

/-- C7: cosine similarity is symmetric; lies in [0,1] for non-negative
weights; equals 1 for a vector compared with itself (non-empty, nonzero
norm); and equals 0 when either vector is empty or no term is shared. -/
theorem c7_cosine_similarity_algebra :
    (∀ a b : Tfidf.Vector, Tfidf.CosineSimilarity a b = Tfidf.CosineSimilarity b a) ∧
    (∀ a b : Tfidf.Vector, (∀ p ∈ a, 0 ≤ p.2) → (∀ p ∈ b, 0 ≤ p.2) →
      0 ≤ Tfidf.CosineSimilarity a b ∧ Tfidf.CosineSimilarity a b ≤ 1) ∧
    (∀ v : Tfidf.Vector, v ≠ [] → Tfidf.sumSq v ≠ 0 →
      Tfidf.CosineSimilarity v v = 1) ∧
    (∀ a b : Tfidf.Vector,
      a = [] ∨ b = [] ∨ (∀ t ∈ a.map Prod.fst, t ∉ b.map Prod.fst) →
      Tfidf.CosineSimilarity a b = 0) := by
  have hnorms := mergeCosine_norms
  refine ⟨?_, ?_, ?_, ?_⟩
  · intro a b
    unfold Tfidf.CosineSimilarity
    by_cases hab : a = [] ∨ b = []
    · rw [if_pos hab, if_pos (Or.symm hab)]
    · rw [if_neg hab, if_neg (fun h => hab (Or.symm h))]
      rw [mergeCosine_swap a b]
      dsimp only
      rw [mul_comm (Real.sqrt _) (Real.sqrt _)]
  · intro a b ha hb
    unfold Tfidf.CosineSimilarity
    by_cases hab : a = [] ∨ b = []
    · rw [if_pos hab]
      norm_num
    · rw [if_neg hab]
      dsimp only
      set d : ℚ := (Tfidf.mergeCosine a b).1 with hd
      set na : ℚ := (Tfidf.mergeCosine a b).2.1 with hna
      set nb : ℚ := (Tfidf.mergeCosine a b).2.2 with hnb
      have hna0 : (0 : ℝ) ≤ (na : ℝ) := by
        have := sumSq_nonneg a
        rw [hna, (hnorms a b).1]
        exact_mod_cast this
      have hnb0 : (0 : ℝ) ≤ (nb : ℝ) := by
        have := sumSq_nonneg b
        rw [hnb, (hnorms a b).2]
        exact_mod_cast this
      by_cases hden : Real.sqrt (na : ℝ) * Real.sqrt (nb : ℝ) = 0
      · rw [if_pos hden]
        norm_num
      · rw [if_neg hden]
        have hdpos : 0 < Real.sqrt (na : ℝ) * Real.sqrt (nb : ℝ) := by
          have h1 : 0 ≤ Real.sqrt (na : ℝ) := Real.sqrt_nonneg _
          have h2 : 0 ≤ Real.sqrt (nb : ℝ) := Real.sqrt_nonneg _
          rcases lt_or_eq_of_le (mul_nonneg h1 h2) with h | h
          · exact h
          · exact absurd h.symm hden
        have hd0 : (0 : ℝ) ≤ (d : ℝ) := by
          have := mergeCosine_dot_nonneg a b ha hb
          rw [hd]
          exact_mod_cast this
        constructor
        · exact div_nonneg hd0 (le_of_lt hdpos)
        · rw [div_le_one hdpos]
          have hsq : (d : ℝ) ^ 2 ≤ (na : ℝ) * (nb : ℝ) := by
            have := mergeCosine_dot_sq_le a b
            rw [hd, hna, hnb]
            exact_mod_cast this
          have : (d : ℝ) ≤ Real.sqrt ((na : ℝ) * (nb : ℝ)) :=
            Real.le_sqrt_of_sq_le hsq
          rwa [Real.sqrt_mul hna0] at this
  · intro v hv hnorm
    unfold Tfidf.CosineSimilarity
    rw [if_neg (by simp [hv])]
    rw [mergeCosine_self v]
    dsimp only
    have hpos : (0 : ℝ) ≤ ((Tfidf.sumSq v : ℚ) : ℝ) := by
      exact_mod_cast sumSq_nonneg v
    rw [Real.mul_self_sqrt hpos]
    have hne : ((Tfidf.sumSq v : ℚ) : ℝ) ≠ 0 := by
      exact_mod_cast hnorm
    rw [if_neg hne]
    exact div_self hne
  · intro a b h
    unfold Tfidf.CosineSimilarity
    rcases h with h | h | h
    · rw [if_pos (Or.inl h)]
    · rw [if_pos (Or.inr h)]
    · by_cases hab : a = [] ∨ b = []
      · rw [if_pos hab]
      · rw [if_neg hab]
        dsimp only
        rw [mergeCosine_dot_disjoint a b h]
        by_cases hden : Real.sqrt (((Tfidf.mergeCosine a b).2.1 : ℚ) : ℝ) *
            Real.sqrt (((Tfidf.mergeCosine a b).2.2 : ℚ) : ℝ) = 0
        · rw [if_pos hden]
        · rw [if_neg hden]
          norm_num

/-- Witness for C7 at concrete vectors: a shared-term pair, a non-negative
pair, a self comparison, and a disjoint pair. -/
theorem c7_cosine_similarity_algebra_witness :
    (Tfidf.CosineSimilarity [("auth", 1)] [("jwt", 2)] =
      Tfidf.CosineSimilarity [("jwt", 2)] [("auth", 1)]) ∧
    (0 ≤ Tfidf.CosineSimilarity [("auth", 1), ("jwt", 2)] [("jwt", 2)] ∧
      Tfidf.CosineSimilarity [("auth", 1), ("jwt", 2)] [("jwt", 2)] ≤ 1) ∧
    Tfidf.CosineSimilarity [("auth", 1), ("jwt", 2)] [("auth", 1), ("jwt", 2)] = 1 ∧
    Tfidf.CosineSimilarity [("auth", 1)] [("jwt", 2)] = 0 := by
  refine ⟨c7_cosine_similarity_algebra.1 _ _,
    c7_cosine_similarity_algebra.2.1 _ _ (by norm_num) (by norm_num),
    c7_cosine_similarity_algebra.2.2.1 _ (by simp) (by norm_num [Tfidf.sumSq]),
    c7_cosine_similarity_algebra.2.2.2 _ _ (Or.inr (Or.inr (by simp)))⟩

/-! ## Package `forest`: nodes, trees, the forest and decay-scored eviction

`time.Now()` is an explicit `now : Int` parameter (Unix milliseconds) and
node/tree ids come from the injective supply `idOf`; Go builds them from a
timestamp plus a random suffix, with uniqueness assumed by downstream
lookups (spec design note). -/

/-- Injective id supply standing in for `generateID`. -/
def idOf (n : ℕ) : String :=
  String.mk (List.replicate n 'x')

theorem idOf_injective : Function.Injective idOf := by
  intro a b h
  have : (List.replicate a 'x').length = (List.replicate b 'x').length := by
    rw [show List.replicate a 'x' = (idOf a).data from rfl,
      show List.replicate b 'x' = (idOf b).data from rfl, h]
  simpa using this

namespace Forest

/-- `Node` from `node.go`, including the `Indexed` flag of the current
revision. -/
structure Node where
  id : String
  content : String
  depth : Int
  weight : ℚ
  frequency : Int
  created : Int
  lastAccessed : Int
  sources : List String
  childIds : List String
  parentId : String
  indexed : Bool
  deriving Repr, DecidableEq

/-- `NewNode` from `node.go` with the id and clock passed explicitly. -/
def NewNode (content : String) (depth : Int) (source : String)
    (id : String) (now : Int) : Node :=
  { id := id
    content := content
    depth := depth
    weight := 1
    frequency := 1
    created := now
    lastAccessed := now
    sources := if source ≠ "" then [source] else []
    childIds := []
    parentId := ""
    indexed := false }

/-- `Node.Score` from `node.go`: weight × recency × depth factor, with age
floored at zero; `math.Exp` is modelled by `expQ`. -/
def Node.Score (n : Node) (now : Int) (decayRate : ℚ) : ℚ :=
  let ageHours : ℚ := ((now - n.lastAccessed : Int) : ℚ) / 3600000
  let ageHours := if ageHours < 0 then 0 else ageHours
  n.weight * expQ (-decayRate * ageHours) * (1 / (1 + (n.depth : ℚ) * 0.15))

/-- `Node.Touch` from `node.go`: frequency up, weight recomputed
(`math.Log2` modelled by `log2Q`), last access refreshed, source appended
and capped to the most recent `maxSources`. -/
def Node.Touch (n : Node) (maxSources : Int) (source : String) (now : Int) : Node :=
  let freq := n.frequency + 1
  let srcs :=
    if source ≠ "" ∧ maxSources > 0 then
      let s := n.sources ++ [source]
      if (s.length : Int) > maxSources then s.drop (s.length - maxSources.toNat) else s
    else n.sources
  { n with
    frequency := freq
    weight := log2Q ((freq : ℚ) + 1)
    lastAccessed := now
    sources := srcs }

/-- `Node.IsLeaf` from `node.go`: no children. -/
def Node.IsLeaf (n : Node) : Bool :=
  n.childIds.isEmpty

/-- `Tree` from `tree.go`: flat id-indexed node map plus root id. -/
structure Tree where
  id : String
  rootId : String
  nodes : List (String × Node)
  created : Int
  lastAccessed : Int
  deriving Repr, DecidableEq

/-- `NewTree` from `tree.go` with the two generated ids passed explicitly. -/
def NewTree (content source : String) (treeId rootId : String) (now : Int) : Tree :=
  { id := treeId
    rootId := rootId
    nodes := [(rootId, NewNode content 0 source rootId now)]
    created := now
    lastAccessed := now }

/-- `Tree.Root`: the root node, `none` standing in for Go's nil pointer. -/
def Tree.Root (t : Tree) : Option Node :=
  alGet t.nodes t.rootId

/-- `Tree.AddChild` from `tree.go`: nil parent means no-op (returns no
child); otherwise the child is linked under the parent and the tree's
last-access time becomes the child's creation time. -/
def Tree.AddChild (t : Tree) (parentId content source : String)
    (childId : String) (now : Int) : Tree × Option Node :=
  match alGet t.nodes parentId with
  | none => (t, none)
  | some parent =>
    let child := { NewNode content (parent.depth + 1) source childId now with
      parentId := parentId }
    let parent2 := { parent with childIds := parent.childIds ++ [childId] }
    ({ t with
        nodes := alSet (alSet t.nodes parentId parent2) childId child
        lastAccessed := child.created },
      some child)

/-- The iterative DFS of `Tree.RemoveNode`: pop an id, delete the node and
push its children. -/
def removeLoop (nodes : List (String × Node)) (stack : List String) :
    List (String × Node) :=
  match stack with
  | [] => nodes
  | nid :: rest =>
    match h : alGet nodes nid with
    | none => removeLoop nodes rest
    | some n => removeLoop (alDel nodes nid) (n.childIds ++ rest)
  termination_by (nodes.length, stack.length)
  decreasing_by
  · exact Prod.Lex.right _ (Nat.lt_succ_self _)
  · refine Prod.Lex.left _ _ (length_alDel_lt _ _ ?_)
    simp_all

/-- `Tree.RemoveNode` from `tree.go`: detach from the parent's child list,
then remove the node and all descendants by iterative DFS. -/
def Tree.RemoveNode (t : Tree) (id : String) : Tree :=
  match alGet t.nodes id with
  | none => t
  | some node =>
    let nodes1 :=
      if node.parentId ≠ "" then
        match alGet t.nodes node.parentId with
        | some parent =>
          alSet t.nodes node.parentId
            { parent with childIds := parent.childIds.erase id }
        | none => t.nodes
      else t.nodes
    { t with nodes := removeLoop nodes1 [id] }

/-- `Tree.GetLeaves` from `tree.go`: all nodes with no children, in map
iteration order (modelled as list order). -/
def Tree.GetLeaves (t : Tree) : List Node :=
  (t.nodes.map Prod.snd).filter (fun n => n.IsLeaf)

/-- `Tree.NodeCount` from `tree.go`. -/
def Tree.NodeCount (t : Tree) : ℕ :=
  t.nodes.length

/-- `Meta` from `forest.go`. -/
structure Meta where
  totalPrompts : Int
  created : Int
  lastUpdate : Int
  deriving Repr, DecidableEq

/-- `Forest` from `forest.go`. -/
structure Forest where
  trees : List Tree
  meta : Meta
  deriving Repr, DecidableEq

/-- `NewForest` from `forest.go`. -/
def NewForest (now : Int) : Forest :=
  { trees := [], meta := { totalPrompts := 0, created := now, lastUpdate := now } }

/-- `Forest.NodeCount` as a natural number (Go uses `int`; the count is a
sum of lengths, never negative). -/
def Forest.nodeCountNat (f : Forest) : ℕ :=
  (f.trees.map Tree.NodeCount).sum

/-- `Forest.NodeCount` from `forest.go`. -/
def Forest.NodeCount (f : Forest) : Int :=
  (f.nodeCountNat : Int)

/-- `Forest.AddTree` from `forest.go`. -/
def Forest.AddTree (f : Forest) (t : Tree) (now : Int) : Forest :=
  { f with trees := f.trees ++ [t], meta := { f.meta with lastUpdate := now } }

/-- `LeafEntry` from `heap.go`: a scored non-root leaf candidate. -/
structure LeafEntry where
  node : Node
  treeIdx : ℕ
  score : ℚ
  deriving Repr, DecidableEq

/-- The per-iteration heap build of `Prune`: every non-root leaf of every
tree, scored at `now`. -/
def pruneEntries (f : Forest) (now : Int) (decayRate : ℚ) : List LeafEntry :=
  (f.trees.enum.map (fun p =>
    ((p.2.GetLeaves.filter (fun n => n.id ≠ p.2.rootId)).map
      (fun n => LeafEntry.mk n p.1 (n.Score now decayRate))))).flatten

/-- Root score of a tree; Go dereferences a nil root (panic) when the tree
is empty, modelled as score 0. -/
def rootScore (t : Tree) (now : Int) (d : ℚ) : ℚ :=
  match t.Root with
  | some r => r.Score now d
  | none => 0

/-- The fallback scan of `Prune`: index of the tree whose root scores
lowest (first-seen minimum under strict `<`, as in the Go loop). -/
def worstTreeIdx (trees : List Tree) (now : Int) (d : ℚ) : ℕ :=
  ((trees.enum.drop 1).foldl
    (fun best p =>
      if rootScore p.2 now d < best.2 then (p.1, rootScore p.2 now d) else best)
    (0, match trees with | [] => 0 | t0 :: _ => rootScore t0 now d)).1

/-- Indexed contents of a tree, reported for TF-IDF cleanup when the whole
tree is removed. -/
def indexedContents (t : Tree) : List String :=
  (t.nodes.map Prod.snd).filterMap
    (fun n => if n.indexed then some n.content else none)

/-- A placeholder tree for out-of-range indexing (Go would panic). -/
def junkTree : Tree :=
  { id := "", rootId := "", nodes := [], created := 0, lastAccessed := 0 }

theorem worstTreeIdx_lt (trees : List Tree) (now : Int) (d : ℚ)
    (h : trees ≠ []) : worstTreeIdx trees now d < trees.length := by
  have hgen : ∀ (l : List (ℕ × Tree)) (acc : ℕ × ℚ),
      acc.1 < trees.length → (∀ p ∈ l, p.1 < trees.length) →
      (l.foldl (fun best p =>
        if rootScore p.2 now d < best.2 then (p.1, rootScore p.2 now d) else best)
        acc).1 < trees.length := by
    intro l
    induction l with
    | nil => intro acc h1 _; exact h1
    | cons p rest ih =>
      intro acc h1 h2
      by_cases hc : rootScore p.2 now d < acc.2
      · simp only [List.foldl_cons, if_pos hc]
        exact ih _ (h2 p (List.mem_cons_self _ _)) (fun q hq => h2 q (List.mem_cons_of_mem _ hq))
      · simp only [List.foldl_cons, if_neg hc]
        exact ih _ h1 (fun q hq => h2 q (List.mem_cons_of_mem _ hq))
  apply hgen
  · cases trees with
    | nil => exact absurd rfl h
    | cons t ts => simp
  · intro p hp
    have hp2 : p ∈ trees.enum := List.mem_of_mem_drop hp
    exact List.fst_lt_of_mem_enum hp2

/-- `Forest.Prune` from `forest.go` (current revision: only indexed
contents are reported).  Each iteration removes the lowest-scoring non-root
leaf (the heap pop is modelled by `argmin`, which returns a least element;
Go's heap breaks score ties differently), or, with no removable leaf, the
whole tree with the lowest root score.  The recursion is guarded by the
strictly decreasing measure nodes+trees; the guard can only fail on a
forest whose map keys disagree with node ids, where the Go loop does not
terminate at all. -/
def Forest.Prune (f : Forest) (memorySize : Int) (decayRate : ℚ) (now : Int) :
    Forest × List String :=
  if (f.NodeCount > memorySize) then
    let entries := pruneEntries f now decayRate
    if entries = [] then
      if htr : f.trees = [] then (f, [])
      else
        let worstIdx := worstTreeIdx f.trees now decayRate
        let removed := indexedContents (f.trees.getD worstIdx junkTree)
        let f2 : Forest := { f with trees := f.trees.eraseIdx worstIdx }
        let r := Forest.Prune f2 memorySize decayRate now
        (r.1, removed ++ r.2)
    else
      match (entries.argmin LeafEntry.score) with
      | none => (f, [])
      | some entry =>
        let tree := f.trees.getD entry.treeIdx junkTree
        let tree2 := tree.RemoveNode entry.node.id
        let removed1 := if entry.node.indexed then [entry.node.content] else []
        let step :=
          if tree2.NodeCount ≤ 1 then
            (f.trees.eraseIdx entry.treeIdx, removed1 ++ indexedContents tree2)
          else
            (f.trees.set entry.treeIdx tree2, removed1)
        let f2 : Forest := { f with trees := step.1 }
        if f2.nodeCountNat + f2.trees.length < f.nodeCountNat + f.trees.length then
          let r := Forest.Prune f2 memorySize decayRate now
          (r.1, step.2 ++ r.2)
        else (f2, step.2)
  else (f, [])
  termination_by f.nodeCountNat + f.trees.length
  decreasing_by
  · have hlt : worstTreeIdx f.trees now decayRate < f.trees.length :=
      worstTreeIdx_lt f.trees now decayRate htr
    have hlen : (f.trees.eraseIdx (worstTreeIdx f.trees now decayRate)).length =
        f.trees.length - 1 := List.length_eraseIdx_of_lt hlt
    have hnodes : Forest.nodeCountNat
        { f with trees := f.trees.eraseIdx (worstTreeIdx f.trees now decayRate) } ≤
        f.nodeCountNat := by
      unfold Forest.nodeCountNat
      have := List.eraseIdx_sublist f.trees (worstTreeIdx f.trees now decayRate)
      exact List.Sublist.sum_le_sum (this.map Tree.NodeCount)
        (fun x _ => Nat.zero_le x)
    simp only [hlen]
    omega
  · assumption

end Forest

/-! ## Claim C2 development: pruning terminates within the cap -/

/-- Map keys agree with the stored node's id; true of every forest the
system builds (`t.Nodes[child.ID] = child`), and exactly the condition
under which the Go prune loop makes progress. -/
def KeyCoherent (f : Forest.Forest) : Prop :=
  ∀ t ∈ f.trees, ∀ p ∈ t.nodes, p.1 = p.2.id

theorem length_alSet_present {α : Type} (m : List (String × α)) (k : String)
    (v : α) (h : (alGet m k).isSome) : (alSet m k v).length = m.length := by
  induction m with
  | nil => simp [alGet] at h
  | cons p rest ih =>
    obtain ⟨k0, v0⟩ := p
    by_cases hk : k0 = k
    · simp [alSet, hk]
    · simp only [alGet_cons, if_neg hk] at h
      simp [alSet, hk, ih h]

theorem mem_alSet {α : Type} {m : List (String × α)} {k : String} {v : α}
    {p : String × α} (h : p ∈ alSet m k v) : p ∈ m ∨ p = (k, v) := by
  induction m with
  | nil => simpa [alSet] using h
  | cons q rest ih =>
    obtain ⟨k0, v0⟩ := q
    by_cases hk : k0 = k
    · rw [alSet, if_pos hk] at h
      rcases List.mem_cons.mp h with h | h
      · exact Or.inr h
      · exact Or.inl (List.mem_cons_of_mem _ h)
    · rw [alSet, if_neg hk] at h
      rcases List.mem_cons.mp h with h | h
      · exact Or.inl (h ▸ List.mem_cons_self _ _)
      · rcases ih h with h | h
        · exact Or.inl (List.mem_cons_of_mem _ h)
        · exact Or.inr h

theorem removeLoop_nil_stack (nodes : List (String × Forest.Node)) :
    Forest.removeLoop nodes [] = nodes := by
  rw [Forest.removeLoop.eq_def]

theorem removeLoop_cons_stack (nodes : List (String × Forest.Node))
    (nid : String) (rest : List String) :
    Forest.removeLoop nodes (nid :: rest) =
      match alGet nodes nid with
      | none => Forest.removeLoop nodes rest
      | some n => Forest.removeLoop (alDel nodes nid) (n.childIds ++ rest) := by
  conv_lhs => rw [Forest.removeLoop.eq_def]
  dsimp only
  cases hx : alGet nodes nid <;> rfl

theorem removeLoop_sublist (nodes : List (String × Forest.Node))
    (stack : List String) : (Forest.removeLoop nodes stack).Sublist nodes := by
  induction nodes, stack using Forest.removeLoop.induct with
  | case1 nodes => rw [removeLoop_nil_stack]
  | case2 nodes nid rest hget ih =>
    rw [removeLoop_cons_stack, hget]
    exact ih
  | case3 nodes nid rest n hget ih =>
    rw [removeLoop_cons_stack, hget]
    exact ih.trans (alDel_sublist nodes nid)

theorem removeLoop_length_lt (nodes : List (String × Forest.Node))
    (nid : String) (rest : List String) (h : (alGet nodes nid).isSome) :
    (Forest.removeLoop nodes (nid :: rest)).length < nodes.length := by
  rw [removeLoop_cons_stack]
  cases hget : alGet nodes nid with
  | none => rw [hget] at h; simp at h
  | some n =>
    calc (Forest.removeLoop (alDel nodes nid) (n.childIds ++ rest)).length
        ≤ (alDel nodes nid).length :=
          (removeLoop_sublist _ _).length_le
      _ < nodes.length := length_alDel_lt nodes nid h

/-- Per-tree key coherence. -/
def TreeKC (t : Forest.Tree) : Prop :=
  ∀ p ∈ t.nodes, p.1 = p.2.id

theorem removeNode_count_lt (t : Forest.Tree) (id : String)
    (h : (alGet t.nodes id).isSome) :
    (t.RemoveNode id).NodeCount < t.NodeCount := by
  obtain ⟨node, hget⟩ := Option.isSome_iff_exists.mp h
  rw [Forest.Tree.RemoveNode, hget]
  dsimp only
  set nodes1 := if node.parentId ≠ "" then
      match alGet t.nodes node.parentId with
      | some parent =>
        alSet t.nodes node.parentId
          { parent with childIds := parent.childIds.erase id }
      | none => t.nodes
    else t.nodes with hnodes1
  have hlen1 : nodes1.length = t.nodes.length := by
    rw [hnodes1]
    by_cases hpar : node.parentId ≠ ""
    · rw [if_pos hpar]
      cases hp : alGet t.nodes node.parentId with
      | none => rfl
      | some parent =>
        exact length_alSet_present _ _ _ (by rw [hp]; rfl)
    · rw [if_neg hpar]
  have hsome1 : (alGet nodes1 id).isSome := by
    rw [hnodes1]
    by_cases hpar : node.parentId ≠ ""
    · rw [if_pos hpar]
      cases hp : alGet t.nodes node.parentId with
      | none => rw [hget]; rfl
      | some parent =>
        by_cases hid : id = node.parentId
        · rw [hid, alGet_alSet_self]
          rfl
        · rw [alGet_alSet_ne _ _ _ _ hid, hget]
          rfl
    · rw [if_neg hpar, hget]
      rfl
  show (Forest.removeLoop nodes1 [id]).length < t.nodes.length
  rw [← hlen1]
  exact removeLoop_length_lt nodes1 id [] hsome1

theorem removeNode_treeKC (t : Forest.Tree) (id : String) (hkc : TreeKC t) :
    TreeKC (t.RemoveNode id) := by
  rw [Forest.Tree.RemoveNode]
  cases hget : alGet t.nodes id with
  | none => exact hkc
  | some node =>
    dsimp only
    intro p hp
    have hp1 := (removeLoop_sublist _ _).mem hp
    by_cases hpar : node.parentId ≠ ""
    · rw [if_pos hpar] at hp1
      cases hgp : alGet t.nodes node.parentId with
      | none =>
        rw [hgp] at hp1
        exact hkc p hp1
      | some parent =>
        rw [hgp] at hp1
        rcases mem_alSet hp1 with h | h
        · exact hkc p h
        · have hpar2 : parent.id = node.parentId :=
            (hkc _ (alGet_eq_some_mem hgp)).symm
          rw [h]
          exact hpar2.symm
    · rw [if_neg hpar] at hp1
      exact hkc p hp1

theorem mem_pruneEntries {f : Forest.Forest} {now : Int} {d : ℚ}
    {e : Forest.LeafEntry} (h : e ∈ Forest.pruneEntries f now d) :
    e.treeIdx < f.trees.length ∧
    e.node ∈ (f.trees.getD e.treeIdx Forest.junkTree).GetLeaves ∧
    e.node.id ≠ (f.trees.getD e.treeIdx Forest.junkTree).rootId := by
  rw [Forest.pruneEntries] at h
  obtain ⟨l, hl, hel⟩ := List.mem_flatten.mp h
  obtain ⟨p, hp, hpl⟩ := List.mem_map.mp hl
  rw [← hpl] at hel
  obtain ⟨n, hn, hne⟩ := List.mem_map.mp hel
  have hidx : p.1 < f.trees.length := List.fst_lt_of_mem_enum hp
  have hgetp : f.trees.get? p.1 = some p.2 := by
    obtain ⟨i, t⟩ := p
    exact (List.mk_mem_enum_iff_get?.mp hp)
  have hgetd : f.trees.getD p.1 Forest.junkTree = p.2 := by
    rw [List.getD_eq_getD_get?, hgetp]
    rfl
  obtain ⟨hn1, hn2⟩ := List.mem_filter.mp hn
  refine ⟨?_, ?_, ?_⟩
  · rw [← hne]
    exact hidx
  · rw [← hne]
    dsimp only
    rw [hgetd]
    exact hn1
  · rw [← hne]
    dsimp only
    rw [hgetd]
    simpa using hn2

theorem getLeaves_alGet_isSome {t : Forest.Tree} {n : Forest.Node}
    (hkc : TreeKC t) (h : n ∈ t.GetLeaves) : (alGet t.nodes n.id).isSome := by
  obtain ⟨hmem, _⟩ := List.mem_filter.mp h
  obtain ⟨p, hp, hps⟩ := List.mem_map.mp hmem
  have hkey : p.1 = n.id := by
    rw [hkc p hp, hps]
  cases hg : alGet t.nodes n.id with
  | some v => rfl
  | none =>
    have := (alGet_eq_none_iff t.nodes n.id).mp hg
    exact absurd (hkey ▸ List.mem_map_of_mem Prod.fst hp) this

theorem sum_map_set_lt (l : List Forest.Tree) (i : ℕ) (t2 : Forest.Tree)
    (hi : i < l.length)
    (hlt : t2.NodeCount < (l.getD i Forest.junkTree).NodeCount) :
    ((l.set i t2).map Forest.Tree.NodeCount).sum <
      (l.map Forest.Tree.NodeCount).sum := by
  induction l generalizing i with
  | nil => simp at hi
  | cons hd rest ih =>
    cases i with
    | zero =>
      simp only [List.set_cons_zero, List.map_cons, List.sum_cons]
      simp only [List.getD_cons_zero] at hlt
      omega
    | succ j =>
      simp only [List.set_cons_succ, List.map_cons, List.sum_cons]
      simp only [List.getD_cons_succ] at hlt
      have := ih j (by simpa using hi) hlt
      omega

theorem keyCoherent_set {f : Forest.Forest} {i : ℕ} {t2 : Forest.Tree}
    (hkc : KeyCoherent f) (ht2 : TreeKC t2) :
    KeyCoherent { f with trees := f.trees.set i t2 } := by
  intro t ht
  rcases List.mem_or_eq_of_mem_set ht with h | h
  · exact hkc t h
  · rw [h]
    exact ht2

theorem keyCoherent_eraseIdx {f : Forest.Forest} {i : ℕ}
    (hkc : KeyCoherent f) :
    KeyCoherent { f with trees := f.trees.eraseIdx i } := by
  intro t ht
  exact hkc t ((List.eraseIdx_sublist f.trees i).mem ht)

theorem prune_post (f : Forest.Forest) (m : Int) (d : ℚ) (now : Int) :
    KeyCoherent f →
    (((Forest.Forest.Prune f m d now).1.NodeCount ≤ m) ∨
      (Forest.Forest.Prune f m d now).1.trees = []) := by
  induction f, m, d, now using Forest.Forest.Prune.induct with
  | case1 f m d now hover entries he htr =>
    intro _
    rw [Forest.Forest.Prune.eq_def]
    dsimp only
    rw [if_pos hover,
      if_pos (show Forest.pruneEntries f now d = [] from he),
      dif_pos htr]
    exact Or.inr htr
  | case2 f m d now hover entries he htr worstIdx f2 ih =>
    intro hkc
    rw [Forest.Forest.Prune.eq_def]
    dsimp only
    rw [if_pos hover,
      if_pos (show Forest.pruneEntries f now d = [] from he),
      dif_neg htr]
    exact ih (keyCoherent_eraseIdx hkc)
  | case3 f m d now hover entries hne harg =>
    intro _
    exact absurd (List.argmin_eq_none.mp harg) hne
  | case4 f m d now hover entries hne entry harg tree tree2 removed1 step f2 hguard ih =>
    intro hkc
    unfold entries at hne harg
    unfold f2 step removed1 tree2 tree at hguard ih
    simp only [dite_eq_ite] at hguard ih
    rw [Forest.Forest.Prune.eq_def]
    dsimp only
    rw [if_pos hover, if_neg hne, harg]
    dsimp only
    rw [if_pos hguard]
    dsimp only
    have hidx : entry.treeIdx < f.trees.length :=
      (mem_pruneEntries (List.argmin_mem harg)).1
    have htree : f.trees.getD entry.treeIdx Forest.junkTree ∈ f.trees := by
      rw [List.getD_eq_get _ _ hidx]
      exact List.get_mem _ _ _
    have hkc2 : TreeKC ((f.trees.getD entry.treeIdx
        Forest.junkTree).RemoveNode entry.node.id) :=
      removeNode_treeKC _ _ (hkc _ htree)
    refine ih ?_
    split
    · exact keyCoherent_eraseIdx hkc
    · exact keyCoherent_set hkc hkc2
  | case5 f m d now hover entries hne entry harg tree tree2 removed1 step f2 hguard =>
    intro hkc
    exfalso
    unfold entries at harg
    unfold f2 step removed1 tree2 tree at hguard
    simp only [dite_eq_ite] at hguard
    apply hguard
    have hmem := mem_pruneEntries (List.argmin_mem harg)
    obtain ⟨hidx, hleaf, _⟩ := hmem
    have htree : f.trees.getD entry.treeIdx Forest.junkTree ∈ f.trees := by
      rw [List.getD_eq_get _ _ hidx]
      exact List.get_mem _ _ _
    have hsome : (alGet (f.trees.getD entry.treeIdx Forest.junkTree).nodes
        entry.node.id).isSome :=
      getLeaves_alGet_isSome (hkc _ htree) hleaf
    have hcnt : ((f.trees.getD entry.treeIdx
        Forest.junkTree).RemoveNode entry.node.id).NodeCount <
        (f.trees.getD entry.treeIdx Forest.junkTree).NodeCount :=
      removeNode_count_lt _ _ hsome
    by_cases hle : ((f.trees.getD entry.treeIdx
        Forest.junkTree).RemoveNode entry.node.id).NodeCount ≤ 1
    · rw [if_pos hle]
      have hlen : (f.trees.eraseIdx entry.treeIdx).length = f.trees.length - 1 :=
        List.length_eraseIdx_of_lt hidx
      have hsum : Forest.Forest.nodeCountNat
          ⟨f.trees.eraseIdx entry.treeIdx, f.meta⟩ ≤ f.nodeCountNat := by
        unfold Forest.Forest.nodeCountNat
        exact List.Sublist.sum_le_sum
          ((List.eraseIdx_sublist f.trees entry.treeIdx).map Forest.Tree.NodeCount)
          (fun x _ => Nat.zero_le x)
      dsimp only at hsum ⊢
      omega
    · rw [if_neg hle]
      have hsum : Forest.Forest.nodeCountNat
          ⟨f.trees.set entry.treeIdx ((f.trees.getD entry.treeIdx
            Forest.junkTree).RemoveNode entry.node.id), f.meta⟩ <
          f.nodeCountNat := by
        unfold Forest.Forest.nodeCountNat
        exact sum_map_set_lt f.trees entry.treeIdx _ hidx hcnt
      have hlen : (f.trees.set entry.treeIdx ((f.trees.getD entry.treeIdx
          Forest.junkTree).RemoveNode entry.node.id)).length =
          f.trees.length := List.length_set _ _ _
      dsimp only at hsum ⊢
      omega
  | case6 f m d now hover =>
    intro _
    rw [Forest.Forest.Prune.eq_def]
    dsimp only
    rw [if_neg hover]
    exact Or.inl (le_of_not_lt hover)

/-- C2: for every key-coherent forest state (map keys agree with node ids,
as in every forest the system builds), every cap `memorySize ≥ 0` and every
decay rate, `Prune` terminates — it is a total function whose guarded
recursion is shown to always progress — and on return the total node count
is at most `memorySize` or the forest has been emptied entirely.  Each
iteration removes a globally lowest-scoring non-root leaf, or, when none
exists, the whole tree whose root has the lowest decay score (see
`Forest.Prune`). -/
theorem c2_prune_terminates_within_cap (f : Forest.Forest) (memorySize : Int)
    (decayRate : ℚ) (now : Int) (hm : 0 ≤ memorySize) (hkc : KeyCoherent f) :
    ((Forest.Forest.Prune f memorySize decayRate now).1.NodeCount ≤ memorySize) ∨
      (Forest.Forest.Prune f memorySize decayRate now).1.trees = [] :=
  prune_post f memorySize decayRate now hkc

/-- Witness for C2 at a concrete two-tree forest pruned to a cap of 1. -/
theorem c2_prune_terminates_within_cap_witness :
    (0 : Int) ≤ 1 ∧
    KeyCoherent ⟨[Forest.NewTree "auth jwt" "p1" "t1" "n1" 0,
      Forest.NewTree "database schema" "p2" "t2" "n2" 0], ⟨2, 0, 0⟩⟩ ∧
    (((Forest.Forest.Prune ⟨[Forest.NewTree "auth jwt" "p1" "t1" "n1" 0,
        Forest.NewTree "database schema" "p2" "t2" "n2" 0], ⟨2, 0, 0⟩⟩
        1 (5 / 100) 0).1.NodeCount ≤ 1) ∨
      (Forest.Forest.Prune ⟨[Forest.NewTree "auth jwt" "p1" "t1" "n1" 0,
        Forest.NewTree "database schema" "p2" "t2" "n2" 0], ⟨2, 0, 0⟩⟩
        1 (5 / 100) 0).1.trees = []) :=
  ⟨by decide, by unfold KeyCoherent; decide,
    c2_prune_terminates_within_cap _ 1 (5 / 100) 0 (by decide)
      (by unfold KeyCoherent; decide)⟩

/-! ## Package `gate`: bubble-up abstraction (claim C5) -/

namespace Gate

/-- Lexicographic order on character lists, by code point.  Equals Go's
byte-wise `<` on strings (UTF-8 byte order agrees with code-point
order). -/
def charListLt : List Char → List Char → Bool
  | [], [] => false
  | [], _ :: _ => true
  | _ :: _, [] => false
  | a :: as, b :: bs =>
    if a.toNat < b.toNat then true
    else if b.toNat < a.toNat then false
    else charListLt as bs

/-- The comparator of `bubbleUp`'s `sort.Slice` call in `gate.go`: count
descending, term ascending on ties.  It is a strict total order on entries
with pairwise-distinct terms, so Go's unstable sort and the insertion sort
`sortBy` produce the same list. -/
def termLt (a b : String × Int) : Bool :=
  if b.2 < a.2 then true
  else if a.2 = b.2 then charListLt a.1.data b.1.data
  else false

/-- The frequency map `bubbleUp` builds over the direct children of a node
(`gate.go`): tokenize each present child's content and count occurrences.
The Go map is modelled as an association list in first-insertion order;
the order is irrelevant because the subsequent sort's comparator is
total. -/
def childFreq (tree : Forest.Tree) (childIds : List String) :
    List (String × Int) :=
  childIds.foldl (fun freq cid =>
    match alGet tree.nodes cid with
    | none => freq
    | some child =>
      (Text.Tokenize child.content).foldl
        (fun fr t => alSet fr t (alGetD fr t 0 + 1)) freq) []

/-- The top-`k` extraction of `bubbleUp` (`gate.go`): sort by count
descending with alphabetical tie-break and take the first `k` terms (all
of them when `k` exceeds the count; Go would panic on a negative `k`,
where the model yields `[]`). -/
def topTerms (freq : List (String × Int)) (k : Int) : List String :=
  let sorted := sortBy termLt freq
  let n : Int := if k > (sorted.length : Int) then (sorted.length : Int) else k
  (sorted.take n.toNat).map Prod.fst

/-- `Gate.bubbleUp` from `gate.go` (current revision, which clears the
`Indexed` flag): post-order recursion over `childIds`, then a non-leaf
node's content is replaced by the top-`k` terms of its *direct* children's
current contents.  The recursion chases child ids through the node map, so
it is paced by explicit fuel: the Go recursion diverges on a cyclic
`childIds` graph, and on an acyclic tree any fuel above the depth yields
the Go result.  Go reads the node through a pointer fetched before the
recursion; on acyclic trees that equals the re-fetch used here. -/
def bubbleUp (k : Int) : ℕ → Forest.Tree → String → Forest.Tree
  | 0, tree, _ => tree
  | fuel + 1, tree, nodeId =>
    match alGet tree.nodes nodeId with
    | none => tree
    | some node =>
      let tree1 := node.childIds.foldl (fun t cid => bubbleUp k fuel t cid) tree
      match alGet tree1.nodes nodeId with
      | none => tree1
      | some node1 =>
        if node1.IsLeaf then tree1
        else
          let node2 := { node1 with
            indexed := false
            content := String.intercalate " | "
              (topTerms (childFreq tree1 node1.childIds) k) }
          { tree1 with nodes := alSet tree1.nodes nodeId node2 }

/-- Modelled from the spec: the descendant leaves of a node, in child-list
order (fuel-paced recursion, as for `bubbleUp`). -/
def descLeaves (tree : Forest.Tree) : ℕ → String → List Forest.Node
  | 0, _ => []
  | fuel + 1, nodeId =>
    match alGet tree.nodes nodeId with
    | none => []
    | some n =>
      if n.IsLeaf then [n]
      else (n.childIds.map (fun cid => descLeaves tree fuel cid)).flatten

/-- Modelled from the spec: the abstraction C5 describes — stemmed terms
collected from the content of every *descendant leaf* of the node,
counted, ranked by count descending with alphabetical tie-break, top `k`
joined with " | ". -/
def specAbstract (tree : Forest.Tree) (nodeId : String) (k : Int)
    (fuel : ℕ) : String :=
  let toks := ((descLeaves tree fuel nodeId).map
    (fun n => Text.Tokenize n.content)).flatten
  let freq := toks.foldl (fun fr t => alSet fr t (alGetD fr t 0 + 1)) []
  String.intercalate " | " (topTerms freq k)

end Gate

theorem bubbleUp_succ (k : Int) (fuel : ℕ) (tree : Forest.Tree)
    (nodeId : String) :
    Gate.bubbleUp k (fuel + 1) tree nodeId =
      match alGet tree.nodes nodeId with
      | none => tree
      | some node =>
        let tree1 := node.childIds.foldl
          (fun t cid => Gate.bubbleUp k fuel t cid) tree
        match alGet tree1.nodes nodeId with
        | none => tree1
        | some node1 =>
          if node1.IsLeaf then tree1
          else
            let node2 := { node1 with
              indexed := false
              content := String.intercalate " | "
                (Gate.topTerms (Gate.childFreq tree1 node1.childIds) k) }
            { tree1 with nodes := alSet tree1.nodes nodeId node2 } :=
  rfl

theorem descLeaves_succ (tree : Forest.Tree) (fuel : ℕ) (nodeId : String) :
    Gate.descLeaves tree (fuel + 1) nodeId =
      match alGet tree.nodes nodeId with
      | none => []
      | some n =>
        if n.IsLeaf then [n]
        else (n.childIds.map (fun cid => Gate.descLeaves tree fuel cid)).flatten :=
  rfl

theorem bubbleUp_leaf_noop (k : Int) (fu : ℕ) (tree : Forest.Tree)
    (cid : String)
    (h : Option.all Forest.Node.IsLeaf (alGet tree.nodes cid) = true) :
    Gate.bubbleUp k (fu + 1) tree cid = tree := by
  rw [bubbleUp_succ]
  cases hg : alGet tree.nodes cid with
  | none => rfl
  | some n =>
    have hleaf : n.IsLeaf = true := by rw [hg] at h; simpa [Option.all] using h
    have hcq : n.childIds = [] := by
      simpa [Forest.Node.IsLeaf, List.isEmpty_iff] using hleaf
    dsimp only
    rw [hcq]
    dsimp only [List.foldl_nil]
    rw [hg]
    dsimp only
    rw [if_pos hleaf]

theorem foldl_bubbleUp_leaves (k : Int) (fu : ℕ) (tree : Forest.Tree)
    (ids : List String)
    (h : ∀ cid ∈ ids,
      Option.all Forest.Node.IsLeaf (alGet tree.nodes cid) = true) :
    ids.foldl (fun t cid => Gate.bubbleUp k (fu + 1) t cid) tree = tree := by
  induction ids with
  | nil => rfl
  | cons cid rest ih =>
    rw [List.foldl_cons]
    rw [bubbleUp_leaf_noop k fu tree cid (h cid (List.mem_cons_self _ _))]
    exact ih (fun c hc => h c (List.mem_cons_of_mem _ hc))

theorem childFreq_go (tree : Forest.Tree) (ids : List String)
    (acc : List (String × Int)) :
    ids.foldl (fun freq cid =>
      match alGet tree.nodes cid with
      | none => freq
      | some child =>
        (Text.Tokenize child.content).foldl
          (fun fr t => alSet fr t (alGetD fr t 0 + 1)) freq) acc =
    (((ids.filterMap (fun cid => alGet tree.nodes cid)).map
      (fun n => Text.Tokenize n.content)).flatten).foldl
      (fun fr t => alSet fr t (alGetD fr t 0 + 1)) acc := by
  induction ids generalizing acc with
  | nil => rfl
  | cons cid rest ih =>
    rw [List.foldl_cons, List.filterMap_cons]
    cases hg : alGet tree.nodes cid with
    | none =>
      dsimp only
      exact ih acc
    | some child =>
      dsimp only
      rw [List.map_cons, List.flatten_cons, List.foldl_append]
      exact ih _

theorem childFreq_eq_flatten (tree : Forest.Tree) (ids : List String) :
    Gate.childFreq tree ids =
      (((ids.filterMap (fun cid => alGet tree.nodes cid)).map
        (fun n => Text.Tokenize n.content)).flatten).foldl
        (fun fr t => alSet fr t (alGetD fr t 0 + 1)) [] := by
  unfold Gate.childFreq
  exact childFreq_go tree ids []

theorem descLeaves_leaves (tree : Forest.Tree) (fu : ℕ) (ids : List String)
    (h : ∀ cid ∈ ids,
      Option.all Forest.Node.IsLeaf (alGet tree.nodes cid) = true) :
    (ids.map (fun cid => Gate.descLeaves tree (fu + 1) cid)).flatten =
      ids.filterMap (fun cid => alGet tree.nodes cid) := by
  induction ids with
  | nil => rfl
  | cons cid rest ih =>
    have hcid := h cid (List.mem_cons_self _ _)
    have hrest := fun c hc => h c (List.mem_cons_of_mem _ hc)
    rw [List.map_cons, List.flatten_cons, List.filterMap_cons, ih hrest]
    cases hg : alGet tree.nodes cid with
    | none =>
      rw [descLeaves_succ, hg]
      dsimp only
      rw [List.nil_append]
    | some n =>
      have hleaf : n.IsLeaf = true := by
        rw [hg] at hcid; simpa [Option.all] using hcid
      rw [descLeaves_succ, hg]
      dsimp only
      rw [if_pos hleaf, List.singleton_append]

theorem specAbstract_depth1 (tree : Forest.Tree) (k : Int) (fc : ℕ)
    (nid : String) (node : Forest.Node)
    (hroot : alGet tree.nodes nid = some node)
    (hnl : node.IsLeaf = false)
    (hkids : ∀ cid ∈ node.childIds,
      Option.all Forest.Node.IsLeaf (alGet tree.nodes cid) = true) :
    Gate.specAbstract tree nid k (fc + 1 + 1) =
      String.intercalate " | " (Gate.topTerms (Gate.childFreq tree node.childIds) k) := by
  unfold Gate.specAbstract
  rw [descLeaves_succ, hroot]
  dsimp only
  rw [if_neg (by simp [hnl])]
  rw [descLeaves_leaves tree fc node.childIds hkids]
  rw [← childFreq_eq_flatten]

/-- C5, corrected.  `bubbleUp` abstracts an internal node from its
*direct* children's current contents, not from its descendant leaves, so
the spec sentence holds on the depth-one trees (every child of the node is
a leaf), where the two collections coincide; `c5_bubbleup_counterexample`
separates them at depth two.  On such a node, `bubbleUp` leaves every
other node (in particular every leaf) untouched and rewrites exactly the
given node: content becomes the spec's top-`k` ranking (count descending,
alphabetical tie-break, joined with " | ") over the descendant leaves'
stemmed terms, and the node is marked not indexed. -/
theorem c5_bubbleup_depth1_matches_spec (tree : Forest.Tree) (k : Int)
    (fc : ℕ) (nid : String) (node : Forest.Node)
    (hroot : alGet tree.nodes nid = some node)
    (hnl : node.IsLeaf = false)
    (hkids : ∀ cid ∈ node.childIds,
      Option.all Forest.Node.IsLeaf (alGet tree.nodes cid) = true) :
    Gate.bubbleUp k (fc + 1 + 1) tree nid =
      { tree with
          nodes :=
            alSet tree.nodes nid
              ({ node with
                  indexed := false
                  content := Gate.specAbstract tree nid k (fc + 1 + 1) }) } := by
  rw [bubbleUp_succ, hroot]
  dsimp only
  rw [foldl_bubbleUp_leaves k fc tree node.childIds hkids, hroot]
  dsimp only
  rw [if_neg (by simp [hnl])]
  rw [specAbstract_depth1 tree k fc nid node hroot hnl hkids]

/-- A concrete depth-one tree: root "r" over leaves "a" ("auth jwt") and
"b" ("token"). -/
def c5root : Forest.Node :=
  { id := "r", content := "root", depth := 0, weight := 1, frequency := 1,
    created := 0, lastAccessed := 0, sources := [], childIds := ["a", "b"],
    parentId := "", indexed := false }

def c5tree : Forest.Tree :=
  { id := "t1", rootId := "r",
    nodes := [("r", c5root),
      ("a", { id := "a", content := "auth jwt", depth := 1, weight := 1,
              frequency := 1, created := 0, lastAccessed := 0, sources := [],
              childIds := [], parentId := "r", indexed := true }),
      ("b", { id := "b", content := "token", depth := 1, weight := 1,
              frequency := 1, created := 0, lastAccessed := 0, sources := [],
              childIds := [], parentId := "r", indexed := true })],
    created := 0, lastAccessed := 0 }

/-- Witness for C5 at the concrete depth-one tree with `k = 2`. -/
theorem c5_bubbleup_depth1_matches_spec_witness :
    alGet c5tree.nodes "r" = some c5root ∧
    c5root.IsLeaf = false ∧
    (∀ cid ∈ c5root.childIds,
      Option.all Forest.Node.IsLeaf (alGet c5tree.nodes cid) = true) ∧
    Gate.bubbleUp 2 (0 + 1 + 1) c5tree "r" =
      { c5tree with
          nodes :=
            alSet c5tree.nodes "r"
              ({ c5root with
                  indexed := false
                  content := Gate.specAbstract c5tree "r" 2 (0 + 1 + 1) }) } :=
  ⟨by decide, by decide, by decide,
    c5_bubbleup_depth1_matches_spec c5tree 2 0 "r" c5root (by decide)
      (by decide) (by decide)⟩

/-- A depth-two tree separating the code from the spec sentence: root "r"
over the internal node "A" (leaves "a1" = "jwt jwt token", "a2" = "auth")
and the leaf "b2" = "token". -/
def c5deep : Forest.Tree :=
  { id := "t2", rootId := "r",
    nodes := [("r", { id := "r", content := "root", depth := 0, weight := 1,
                      frequency := 1, created := 0, lastAccessed := 0,
                      sources := [], childIds := ["A", "b2"], parentId := "",
                      indexed := false }),
      ("A", { id := "A", content := "mid", depth := 1, weight := 1,
              frequency := 1, created := 0, lastAccessed := 0, sources := [],
              childIds := ["a1", "a2"], parentId := "r", indexed := false }),
      ("a1", { id := "a1", content := "jwt jwt token", depth := 2, weight := 1,
               frequency := 1, created := 0, lastAccessed := 0, sources := [],
               childIds := [], parentId := "A", indexed := true }),
      ("a2", { id := "a2", content := "auth", depth := 2, weight := 1,
               frequency := 1, created := 0, lastAccessed := 0, sources := [],
               childIds := [], parentId := "A", indexed := true }),
      ("b2", { id := "b2", content := "token", depth := 1, weight := 1,
               frequency := 1, created := 0, lastAccessed := 0, sources := [],
               childIds := [], parentId := "r", indexed := true })],
    created := 0, lastAccessed := 0 }

/-- C5 counterexample: at depth two the code collects from the direct
children's already-rewritten contents ("jwt | auth" and "token", each term
once), not from the descendant leaves, so the root becomes "auth | jwt"
while the spec's descendant-leaf collection (jwt ×2, token ×2, auth ×1)
yields "jwt | token". -/
theorem c5_bubbleup_counterexample :
    (alGet (Gate.bubbleUp 2 3 c5deep "r").nodes "r").map
      Forest.Node.content = some "auth | jwt" ∧
    Gate.specAbstract c5deep "r" 2 3 = "jwt | token" := by
  constructor
  · decide
  · decide

/-! ## Package `gate`: context generation (claim C8) -/

namespace Gate

/-- Decimal digits of a natural number (fuel-paced; any fuel above the
digit count gives the full decimal form). -/
def natToChars : ℕ → ℕ → List Char
  | 0, _ => []
  | fuel + 1, n =>
    if n < 10 then [Char.ofNat (48 + n)]
    else natToChars fuel (n / 10) ++ [Char.ofNat (48 + n % 10)]

/-- Go's `%d` formatting of an integer. -/
def intStr (n : Int) : String :=
  if n < 0 then "-" ++ (⟨natToChars (n.natAbs + 1) n.natAbs⟩ : String)
  else (⟨natToChars (n.natAbs + 1) n.natAbs⟩ : String)

/-- Model of Go's `%.2f`: two decimals, rounding half away from zero.  Go
rounds its binary float half-to-even; exact float formatting is outside
the rational model, and no theorem below depends on the digits. -/
def fmt2 (q : ℚ) : String :=
  let sign := if q < 0 then "-" else ""
  let cents : ℕ := (|q| * 100 + 1 / 2).floor.toNat
  let frac := cents % 100
  sign ++ intStr ((cents / 100 : ℕ) : Int) ++ "." ++
    (if frac < 10 then "0" ++ intStr (frac : Int) else intStr (frac : Int))

/-- Model of Go's `%.0f`: nearest integer, half away from zero (same
caveat as `fmt2`). -/
def fmt0 (q : ℚ) : String :=
  let sign := if q < 0 then "-" else ""
  sign ++ intStr ((|q| + 1 / 2).floor.toNat : Int)

/-- `Config` from `gate.go`. -/
structure Config where
  extendThreshold : ℚ
  branchThreshold : ℚ
  bubbleUpTerms : Int
  maxSourcesPerNode : Int
  memorySize : Int
  decayRate : ℚ
  contextLimit : Int
  transitionBoost : ℚ
  deriving Repr, DecidableEq

/-- `DefaultConfig` from `gate.go`. -/
def DefaultConfig : Config :=
  { extendThreshold := 55 / 100
    branchThreshold := 25 / 100
    bubbleUpTerms := 6
    maxSourcesPerNode := 20
    memorySize := 100
    decayRate := 5 / 100
    contextLimit := 600
    transitionBoost := 2 / 10 }

/-- The persistent fields of `Gate` from `gate.go` (`vecCache` is a pure
memoisation of `Engine.Vectorize` and is not part of the state). -/
structure GateState where
  forest : Forest.Forest
  engine : Tfidf.Engine
  chain : Markov.Chain
  config : Config

/-- Root content of a tree; Go dereferences a nil root (panic) on an empty
tree, modelled as "". -/
def rootContent (t : Forest.Tree) : String :=
  match t.Root with
  | some r => r.content
  | none => ""

/-- The body built by `GenerateContext` in `gate.go` before limit
enforcement: header with counts, the top-5 trees by boosted root score
(each with up to 3 most recent non-root leaves, leaf content clipped at 80
characters), and the optional prediction line.  Go's byte slicing is
modelled on characters (they agree on ASCII). -/
def generateBody (g : GateState) : String :=
  let now := (g.forest.trees.headD Forest.junkTree).lastAccessed
  let alpha := g.config.transitionBoost
  let header := "[Focus | " ++ intStr g.forest.meta.totalPrompts ++
    " prompts | " ++ intStr g.forest.NodeCount ++ "/" ++
    intStr g.config.memorySize ++ " mem | " ++
    intStr (g.forest.trees.length : Int) ++ " trees]\n"
  let scored := g.forest.trees.map (fun t =>
    let ds := Forest.rootScore t now g.config.decayRate
    let ds := if alpha > 0 ∧ g.chain.lastTopic ≠ "" then
        ds * (1 + alpha * Markov.Probability g.chain g.chain.lastTopic t.id)
      else ds
    (t, ds))
  let sorted := sortBy (fun a b => decide (b.2 < a.2)) scored
  let blocks := (sorted.take 5).map (fun st =>
    let line := "  [" ++ fmt2 st.2 ++ "] " ++ rootContent st.1 ++ "\n"
    let leaves := sortBy (fun a b => decide (b.lastAccessed < a.lastAccessed))
      st.1.GetLeaves
    let leafLines := ((leaves.take 3).filter
        (fun leaf => leaf.id ≠ st.1.rootId)).map (fun leaf =>
      let content := if 80 < leaf.content.data.length then
          (⟨leaf.content.data.take 80⟩ : String) ++ "..."
        else leaf.content
      "    - " ++ content ++ "\n")
    line ++ String.join leafLines)
  let pred :=
    if g.chain.lastTopic ≠ "" then
      match Markov.TopTransitions g.chain g.chain.lastTopic 3 with
      | [] => ""
      | t0 :: rest =>
        if t0.probability ≥ 3 / 10 then
          "  -> next:" ++ String.join (((t0 :: rest).enum).map (fun p =>
            let name :=
              match g.forest.trees.find? (fun tree => tree.id = p.2.topicID) with
              | some tree =>
                match tree.Root with
                | some root =>
                  if 30 < root.content.data.length then
                    (⟨root.content.data.take 30⟩ : String)
                  else root.content
                | none => (⟨p.2.topicID.data.take 8⟩ : String)
              | none => (⟨p.2.topicID.data.take 8⟩ : String)
            (if 0 < p.1 then "," else "") ++ " " ++ name ++ " (" ++
              fmt0 (p.2.probability * 100) ++ "%)")) ++ "\n"
        else ""
    else ""
  header ++ String.join blocks ++ pred

/-- `strings.LastIndex(s, "\n")` over the character list: the largest
index holding a newline, `-1` when none does. -/
def lastIndexNl (cs : List Char) : Int :=
  ((cs.enum.filter (fun p => p.2 = '\n')).map (fun p => (p.1 : Int))).foldl
    max (-1)

/-- The limit-enforcement tail of `GenerateContext`: when a positive limit
is exceeded, cut to the limit and trim back to the last complete line when
the cut prefix has a newline at a positive index. -/
def enforceLimit (s : String) (limit : Int) : String :=
  if limit > 0 ∧ limit < (s.data.length : Int) then
    let r := s.data.take limit.toNat
    let idx := lastIndexNl r
    if 0 < idx then (⟨r.take (idx.toNat + 1)⟩ : String) else (⟨r⟩ : String)
  else s

/-- `Gate.GenerateContext` from `gate.go`: empty on an empty forest, else
the body, limit-enforced, with the close marker appended *after*
enforcement. -/
def GenerateContext (g : GateState) : String :=
  if g.forest.trees = [] then ""
  else enforceLimit (generateBody g) g.config.contextLimit ++ "[/Focus]\n"

end Gate

theorem str_append_data (a b : String) : (a ++ b).data = a.data ++ b.data := by
  cases a; cases b; rfl

theorem foldl_max_lt_int (l : List Int) (a L : Int) (ha : a < L)
    (hl : ∀ x ∈ l, x < L) : l.foldl max a < L := by
  induction l generalizing a with
  | nil => exact ha
  | cons x xs ih =>
    rw [List.foldl_cons]
    exact ih _ (max_lt ha (hl x (List.mem_cons_self _ _)))
      (fun y hy => hl y (List.mem_cons_of_mem _ hy))

theorem lastIndexNl_lt (cs : List Char) :
    Gate.lastIndexNl cs < (cs.length : Int) := by
  refine foldl_max_lt_int _ _ _ ?_ ?_
  · have : (0 : Int) ≤ (cs.length : Int) := Int.natCast_nonneg _
    omega
  · intro x hx
    simp only [List.mem_map, List.mem_filter] at hx
    obtain ⟨p, ⟨hpe, _⟩, rfl⟩ := hx
    exact_mod_cast List.fst_lt_of_mem_enum hpe

theorem foldl_max_mem (l : List Int) (a : Int) :
    l.foldl max a = a ∨ l.foldl max a ∈ l := by
  induction l generalizing a with
  | nil => exact Or.inl rfl
  | cons x xs ih =>
    rw [List.foldl_cons]
    rcases ih (max a x) with h | h
    · rw [h]
      rcases le_total a x with hax | hxa
      · exact Or.inr (by rw [max_eq_right hax]; exact List.mem_cons_self _ _)
      · exact Or.inl (max_eq_left hxa)
    · exact Or.inr (List.mem_cons_of_mem _ h)

theorem lastIndexNl_newline (cs : List Char)
    (h : 0 < Gate.lastIndexNl cs) :
    cs[(Gate.lastIndexNl cs).toNat]? = some '\n' := by
  unfold Gate.lastIndexNl at h ⊢
  rcases foldl_max_mem ((cs.enum.filter (fun p => p.2 = '\n')).map
      (fun p => (p.1 : Int))) (-1) with he | hm
  · rw [he] at h
    omega
  · simp only [List.mem_map, List.mem_filter] at hm
    obtain ⟨⟨i, c⟩, ⟨hpe, hpc⟩, hpv⟩ := hm
    have hc : c = '\n' := by simpa using hpc
    have hg : cs.get? i = some c := (List.mk_mem_enum_iff_get? ).mp hpe
    rw [List.get?_eq_getElem?] at hg
    rw [← hpv, Int.toNat_natCast, hg, hc]

theorem enforceLimit_le (s : String) (limit : Int) (hpos : 0 < limit) :
    (Gate.enforceLimit s limit).data.length ≤ limit.toNat := by
  unfold Gate.enforceLimit
  by_cases hc : limit > 0 ∧ limit < (s.data.length : Int)
  · rw [if_pos hc]
    dsimp only
    have hr : (s.data.take limit.toNat).length ≤ limit.toNat :=
      List.length_take_le _ _
    by_cases hidx : 0 < Gate.lastIndexNl (s.data.take limit.toNat)
    · rw [if_pos hidx]
      have := List.length_take_le ((Gate.lastIndexNl
        (s.data.take limit.toNat)).toNat + 1) (s.data.take limit.toNat)
      have hlt := lastIndexNl_lt (s.data.take limit.toNat)
      simp only [List.length_take] at this ⊢
      omega
    · rw [if_neg hidx]
      exact hr
  · rw [if_neg hc]
    have : ¬limit < (s.data.length : Int) := fun hl => hc ⟨hpos, hl⟩
    omega

theorem enforceLimit_trim (s : String) (limit : Int)
    (hgt : limit < (s.data.length : Int)) (hpos : 0 < limit)
    (hidx : 0 < Gate.lastIndexNl (s.data.take limit.toNat)) :
    ∃ pre, Gate.enforceLimit s limit = ⟨pre ++ ['\n']⟩ := by
  unfold Gate.enforceLimit
  rw [if_pos ⟨hpos, hgt⟩]
  dsimp only
  rw [if_pos hidx]
  refine ⟨(s.data.take limit.toNat).take
    (Gate.lastIndexNl (s.data.take limit.toNat)).toNat, ?_⟩
  have hnl := lastIndexNl_newline _ hidx
  rw [List.take_succ, hnl]
  rfl

/-- C8, corrected.  The configured limit caps only the *body* of the
context block: enforcement truncates the rendered body to the limit and,
when the cut prefix has a newline past position zero, trims back to the
last complete line — but the close marker `"[/Focus]\n"` (9 characters) is
appended *after* enforcement (and `handlePrompt` in `main.go` splices the
guide block in after it, outside any cap).  So the whole emitted block is
only bounded by limit + 9, and when the cut prefix holds no newline the
cut stays mid-line; `c8_marker_exceeds_limit_counterexample` exhibits
both. -/
theorem c8_context_limit_with_marker (g : Gate.GateState)
    (hne : g.forest.trees ≠ []) (hpos : 0 < g.config.contextLimit) :
    Gate.GenerateContext g =
      Gate.enforceLimit (Gate.generateBody g) g.config.contextLimit ++
        "[/Focus]\n" ∧
    (Gate.enforceLimit (Gate.generateBody g)
      g.config.contextLimit).data.length ≤ g.config.contextLimit.toNat ∧
    (Gate.GenerateContext g).data.length ≤ g.config.contextLimit.toNat + 9 ∧
    (g.config.contextLimit < ((Gate.generateBody g).data.length : Int) →
      0 < Gate.lastIndexNl
        ((Gate.generateBody g).data.take g.config.contextLimit.toNat) →
      ∃ pre, Gate.enforceLimit (Gate.generateBody g) g.config.contextLimit =
        ⟨pre ++ ['\n']⟩) := by
  have heq : Gate.GenerateContext g =
      Gate.enforceLimit (Gate.generateBody g) g.config.contextLimit ++
        "[/Focus]\n" := by
    unfold Gate.GenerateContext
    rw [if_neg hne]
  have hle := enforceLimit_le (Gate.generateBody g) g.config.contextLimit hpos
  refine ⟨heq, hle, ?_, ?_⟩
  · rw [heq, str_append_data, List.length_append]
    have : ("[/Focus]\n" : String).data.length = 9 := by decide
    omega
  · intro hgt hidx
    exact enforceLimit_trim _ _ hgt hpos hidx

/-- The concrete state of the C8 counterexample: one single-node tree, no
transition history, context limit 30. -/
def c8state : Gate.GateState :=
  { forest :=
      { trees := [Forest.NewTree "auth" "p1" "t1" "n1" 0]
        meta := { totalPrompts := 1, created := 0, lastUpdate := 0 } }
    engine := Tfidf.NewEngine
    chain := Markov.New
    config := { Gate.DefaultConfig with contextLimit := 30 } }

unseal Rat.mul Rat.add Rat.sub Rat.inv Rat.ofScientific Nat.gcd in
/-- C8 counterexample: with limit 30 the 42-character header is cut
mid-line (no newline in the first 30 characters, so no trim happens) and
the marker is appended after enforcement, giving a 39-character block that
both exceeds the limit and ends its capped part mid-line. -/
theorem c8_marker_exceeds_limit_counterexample :
    c8state.forest.trees ≠ [] ∧ 0 < c8state.config.contextLimit ∧
    Gate.GenerateContext c8state =
      "[Focus | 1 prompts | 1/100 mem[/Focus]\n" ∧
    c8state.config.contextLimit.toNat <
      (Gate.GenerateContext c8state).data.length := by
  refine ⟨by decide, by decide, by decide, by decide⟩

unseal Rat.mul Rat.add Rat.sub Rat.inv Rat.ofScientific Nat.gcd in
/-- Witness for C8 at the counterexample state (the implication conjunct
is vacuous there: the 30-character prefix holds no newline). -/
theorem c8_context_limit_with_marker_witness :
    c8state.forest.trees ≠ [] ∧ 0 < c8state.config.contextLimit ∧
    (Gate.GenerateContext c8state =
      Gate.enforceLimit (Gate.generateBody c8state)
        c8state.config.contextLimit ++ "[/Focus]\n" ∧
    (Gate.enforceLimit (Gate.generateBody c8state)
      c8state.config.contextLimit).data.length ≤
        c8state.config.contextLimit.toNat ∧
    (Gate.GenerateContext c8state).data.length ≤
      c8state.config.contextLimit.toNat + 9 ∧
    (c8state.config.contextLimit <
        ((Gate.generateBody c8state).data.length : Int) →
      0 < Gate.lastIndexNl ((Gate.generateBody c8state).data.take
        c8state.config.contextLimit.toNat) →
      ∃ pre, Gate.enforceLimit (Gate.generateBody c8state)
        c8state.config.contextLimit = ⟨pre ++ ['\n']⟩)) :=
  ⟨by decide, by decide,
    c8_context_limit_with_marker c8state (by decide) (by decide)⟩

/-! ## Command `focus`: configuration loading (claim C9) -/

namespace Cli

/-- The nested `similarity` object of `config` in `cmd/focus/main.go`. -/
structure Similarity where
  extend : ℚ
  branch : ℚ
  deriving Repr, DecidableEq

/-- `config` from `cmd/focus/main.go` (current revision, the one with
`transitionBoost`). -/
structure CliConfig where
  memorySize : Int
  decayRate : ℚ
  similarity : Similarity
  contextLimit : Int
  bubbleUpTerms : Int
  maxSourcesPerNode : Int
  guideSize : Int
  transitionBoost : ℚ
  deriving Repr, DecidableEq

/-- `defaultConfig` from `cmd/focus/main.go`. -/
def defaultConfig : CliConfig :=
  { memorySize := 100
    decayRate := 5 / 100
    similarity := { extend := 55 / 100, branch := 25 / 100 }
    contextLimit := 600
    bubbleUpTerms := 6
    maxSourcesPerNode := 20
    guideSize := 15
    transitionBoost := 2 / 10 }

/-- A successfully parsed config file, as `loadConfig`'s phase 1 sees it:
`some v` exactly when the key is present in the JSON (so `some 0` is an
explicit zero and `none` an absent key); the `similarity` object itself
carries optional `extend`/`branch` keys.  I/O failures and an empty file
return the defaults in Go and change nothing in phase 3, so they are the
all-`none` file. -/
structure ConfigFile where
  memorySize : Option Int
  decayRate : Option ℚ
  similarity : Option (Option ℚ × Option ℚ)
  contextLimit : Option Int
  bubbleUpTerms : Option Int
  maxSourcesPerNode : Option Int
  guideSize : Option Int
  transitionBoost : Option ℚ
  deriving Repr, DecidableEq

/-- `loadConfig` from `cmd/focus/main.go` (current revision): start from
the defaults and, in phase 3, overwrite exactly the knobs whose keys are
present in the file — including ones explicitly set to zero. -/
def loadConfig (f : ConfigFile) : CliConfig :=
  let cfg := defaultConfig
  let cfg := match f.memorySize with
    | some v => { cfg with memorySize := v }
    | none => cfg
  let cfg := match f.decayRate with
    | some v => { cfg with decayRate := v }
    | none => cfg
  let cfg := match f.contextLimit with
    | some v => { cfg with contextLimit := v }
    | none => cfg
  let cfg := match f.bubbleUpTerms with
    | some v => { cfg with bubbleUpTerms := v }
    | none => cfg
  let cfg := match f.maxSourcesPerNode with
    | some v => { cfg with maxSourcesPerNode := v }
    | none => cfg
  let cfg := match f.guideSize with
    | some v => { cfg with guideSize := v }
    | none => cfg
  let cfg := match f.transitionBoost with
    | some v => { cfg with transitionBoost := v }
    | none => cfg
  let cfg := match f.similarity with
    | some sim =>
      let cfg := match sim.1 with
        | some v => { cfg with similarity := { cfg.similarity with extend := v } }
        | none => cfg
      match sim.2 with
      | some v => { cfg with similarity := { cfg.similarity with branch := v } }
      | none => cfg
    | none => cfg
  cfg

end Cli

/-- C9: every knob of the effective configuration equals the file's value
whenever its key is present — an explicit zero included — and the default
exactly when the key is absent.  In particular `decayRate = 0` or
`transitionBoost = 0` written in the file survives to the effective
configuration instead of being replaced by the non-zero default. -/
theorem c9_config_zero_honored (f : Cli.ConfigFile) :
    (Cli.loadConfig f).memorySize =
      f.memorySize.getD Cli.defaultConfig.memorySize ∧
    (Cli.loadConfig f).decayRate =
      f.decayRate.getD Cli.defaultConfig.decayRate ∧
    (Cli.loadConfig f).contextLimit =
      f.contextLimit.getD Cli.defaultConfig.contextLimit ∧
    (Cli.loadConfig f).bubbleUpTerms =
      f.bubbleUpTerms.getD Cli.defaultConfig.bubbleUpTerms ∧
    (Cli.loadConfig f).maxSourcesPerNode =
      f.maxSourcesPerNode.getD Cli.defaultConfig.maxSourcesPerNode ∧
    (Cli.loadConfig f).guideSize =
      f.guideSize.getD Cli.defaultConfig.guideSize ∧
    (Cli.loadConfig f).transitionBoost =
      f.transitionBoost.getD Cli.defaultConfig.transitionBoost ∧
    (Cli.loadConfig f).similarity.extend =
      (f.similarity.bind (fun sim => sim.1)).getD
        Cli.defaultConfig.similarity.extend ∧
    (Cli.loadConfig f).similarity.branch =
      (f.similarity.bind (fun sim => sim.2)).getD
        Cli.defaultConfig.similarity.branch := by
  obtain ⟨m, d, s, c, b, x, gs, t⟩ := f
  rcases m with _ | m <;> rcases d with _ | d <;>
    rcases c with _ | c <;> rcases b with _ | b <;>
    rcases x with _ | x <;> rcases gs with _ | gs <;>
    rcases t with _ | t <;>
    (first
      | exact ⟨rfl, rfl, rfl, rfl, rfl, rfl, rfl, rfl, rfl⟩
      | (rcases s with _ | ⟨se, sb⟩
         · exact ⟨rfl, rfl, rfl, rfl, rfl, rfl, rfl, rfl, rfl⟩
         · rcases se with _ | se <;> rcases sb with _ | sb <;>
             exact ⟨rfl, rfl, rfl, rfl, rfl, rfl, rfl, rfl, rfl⟩))

/-- The C9 witness file: `decayRate` and `transitionBoost` explicitly
zero, everything else absent. -/
def c9file : Cli.ConfigFile :=
  { memorySize := none
    decayRate := some 0
    similarity := none
    contextLimit := none
    bubbleUpTerms := none
    maxSourcesPerNode := none
    guideSize := none
    transitionBoost := some 0 }

/-- Witness for C9: the explicit zeros survive while an absent knob keeps
its default. -/
theorem c9_config_zero_honored_witness :
    (Cli.loadConfig c9file).decayRate = 0 ∧
    (Cli.loadConfig c9file).transitionBoost = 0 ∧
    (Cli.loadConfig c9file).memorySize = 100 :=
  ⟨((c9_config_zero_honored c9file).2.1).trans rfl,
    ((c9_config_zero_honored c9file).2.2.2.2.2.2.1).trans rfl,
    ((c9_config_zero_honored c9file).1).trans rfl⟩

/-! ## Package `gate`: prompt classification (claim C1) -/

namespace Tfidf

/-- `Engine.VectorizeTokens` from `engine.go`: term frequencies weighted
by IDF, zero-IDF terms dropped, sorted by `NewVector`. -/
def VectorizeTokens (e : Engine) (tokens : List String) : Vector :=
  if tokens = [] then []
  else
    let tf := Text.TermFrequency tokens
    let weights := tf.filterMap (fun p =>
      let idf := IDF e p.1
      if idf > 0 then some (p.1, p.2 * idf) else none)
    NewVector weights

/-- `Engine.Vectorize` from `engine.go` (its body repeats
`VectorizeTokens` verbatim on `Tokenize rawText`). -/
def Vectorize (e : Engine) (rawText : String) : Vector :=
  VectorizeTokens e (Text.Tokenize rawText)

end Tfidf

namespace Gate

/-- `Gate.nodeVec` from `gate.go`: the pure function of engine and content
that the transient `vecCache` memoises. -/
def nodeVec (e : Tfidf.Engine) (content : String) : Tfidf.Vector :=
  Tfidf.Vectorize e content

/-- `Action` from `gate.go`. -/
inductive Action where
  | new
  | branch
  | extend
  deriving Repr, DecidableEq

/-- `Classification` from `gate.go` (the score is real-valued because the
cosine is). -/
structure Classification where
  action : Action
  treeIdx : ℕ
  leafId : String
  score : ℝ

/-- `Gate.classify` from `gate.go` (current revision): every root and
leaf is scored `cosine × boostFactor` with the *multiplicative* Markov
boost `boostFactor = 1 + α·P(lastTopic, tree)` (neutral 1 when `α ≤ 0` or
no last topic), the strictly-greater best is kept, and the final score is
cut against the extend/branch thresholds. -/
noncomputable def classify (g : GateState) (vec : Tfidf.Vector) :
    Classification :=
  if g.forest.trees = [] ∨ vec = [] then
    { action := Action.new, treeIdx := 0, leafId := "", score := 0 }
  else
    let alpha := g.config.transitionBoost
    let best := g.forest.trees.enum.foldl
      (fun (best : Classification) (p : ℕ × Forest.Tree) =>
      match p.2.Root with
      | none => best
      | some root =>
        let boostFactor : ℝ :=
          if alpha > 0 ∧ g.chain.lastTopic ≠ "" then
            (((1 + alpha * Markov.Probability g.chain g.chain.lastTopic
              p.2.id) : ℚ) : ℝ)
          else 1
        let rootSim := Tfidf.CosineSimilarity vec
          (nodeVec g.engine root.content) * boostFactor
        let best := if rootSim > best.score then
            { best with score := rootSim, treeIdx := p.1, leafId := "" }
          else best
        p.2.GetLeaves.foldl (fun (b : Classification) (leaf : Forest.Node) =>
          let leafSim := Tfidf.CosineSimilarity vec
            (nodeVec g.engine leaf.content) * boostFactor
          if leafSim > b.score then
            { b with score := leafSim, treeIdx := p.1, leafId := leaf.id }
          else b) best)
      { action := Action.new, treeIdx := 0, leafId := "", score := 0 }
    if best.score ≥ ((g.config.extendThreshold : ℚ) : ℝ) then
      { best with action := Action.extend }
    else if best.score ≥ ((g.config.branchThreshold : ℚ) : ℝ) then
      { best with action := Action.branch }
    else { best with action := Action.new }

end Gate

theorem foldl_keep {α β : Type} (f : β → α → β) (l : List α) (b : β)
    (h : ∀ x ∈ l, f b x = b) : l.foldl f b = b := by
  induction l with
  | nil => rfl
  | cons x xs ih =>
    rw [List.foldl_cons, h x (List.mem_cons_self _ _)]
    exact ih (fun y hy => h y (List.mem_cons_of_mem _ hy))

/-- C1: the Markov boost is multiplicative, so when every root and leaf
has zero raw cosine similarity to the prompt vector, every boosted score
is `0 × (1 + α·P) = 0`, the strictly-greater update never fires, and —
for positive branch/extend thresholds, as configured — the classification
is NEW with score 0, for every transition history and every `α`.
Transition history alone can never produce a BRANCH or EXTEND. -/
theorem c1_multiplicative_boost_zero_cosine (g : Gate.GateState)
    (vec : Tfidf.Vector)
    (hbr : 0 < g.config.branchThreshold)
    (hext : 0 < g.config.extendThreshold)
    (hzero : ∀ t ∈ g.forest.trees,
      (∀ r, t.Root = some r →
        Tfidf.CosineSimilarity vec (Gate.nodeVec g.engine r.content) = 0) ∧
      ∀ leaf ∈ t.GetLeaves,
        Tfidf.CosineSimilarity vec (Gate.nodeVec g.engine leaf.content) = 0) :
    (Gate.classify g vec).action = Gate.Action.new ∧
    (Gate.classify g vec).score = 0 := by
  unfold Gate.classify
  by_cases hempty : g.forest.trees = [] ∨ vec = []
  · rw [if_pos hempty]
    exact ⟨rfl, rfl⟩
  · rw [if_neg hempty]
    dsimp only
    have hfold : g.forest.trees.enum.foldl
        (fun (best : Gate.Classification) (p : ℕ × Forest.Tree) =>
        match p.2.Root with
        | none => best
        | some root =>
          let boostFactor : ℝ :=
            if g.config.transitionBoost > 0 ∧ g.chain.lastTopic ≠ "" then
              (((1 + g.config.transitionBoost *
                Markov.Probability g.chain g.chain.lastTopic p.2.id) : ℚ) : ℝ)
            else 1
          let rootSim := Tfidf.CosineSimilarity vec
            (Gate.nodeVec g.engine root.content) * boostFactor
          let best := if rootSim > best.score then
              { best with score := rootSim, treeIdx := p.1, leafId := "" }
            else best
          p.2.GetLeaves.foldl
            (fun (b : Gate.Classification) (leaf : Forest.Node) =>
            let leafSim := Tfidf.CosineSimilarity vec
              (Gate.nodeVec g.engine leaf.content) * boostFactor
            if leafSim > b.score then
              { b with score := leafSim, treeIdx := p.1, leafId := leaf.id }
            else b) best)
        { action := Gate.Action.new, treeIdx := 0, leafId := "", score := 0 } =
        { action := Gate.Action.new, treeIdx := 0, leafId := "", score := 0 } := by
      apply foldl_keep
      intro p hp
      have hmem : p.2 ∈ g.forest.trees := by
        obtain ⟨i, t⟩ := p
        have := (List.mk_mem_enum_iff_get? ).mp hp
        exact List.get?_mem this
      obtain ⟨hr0, hl0⟩ := hzero p.2 hmem
      cases hroot : p.2.Root with
      | none => rfl
      | some root =>
        dsimp only
        rw [hr0 root hroot, zero_mul]
        rw [if_neg (lt_irrefl (0 : ℝ))]
        apply foldl_keep
        intro leaf hleaf
        dsimp only
        rw [hl0 leaf hleaf, zero_mul]
        rw [if_neg (lt_irrefl (0 : ℝ))]
    rw [hfold]
    dsimp only
    have hexR : ¬((0 : ℝ) ≥ ((g.config.extendThreshold : ℚ) : ℝ)) := by
      rw [not_le]
      exact_mod_cast hext
    have hbrR : ¬((0 : ℝ) ≥ ((g.config.branchThreshold : ℚ) : ℝ)) := by
      rw [not_le]
      exact_mod_cast hbr
    rw [if_neg hexR, if_neg hbrR]
    exact ⟨rfl, rfl⟩

/-- The C1 witness engine: only "jwt" in the corpus, so "auth" vectorizes
to the empty vector. -/
def c1engine : Tfidf.Engine := { docFreq := [("jwt", 1)], totalDocs := 1 }

def c1tree : Forest.Tree := Forest.NewTree "auth" "p1" "t1" "n1" 0

def c1state : Gate.GateState :=
  { forest := { trees := [c1tree], meta := ⟨1, 0, 0⟩ }
    engine := c1engine
    chain := Markov.New
    config := Gate.DefaultConfig }

def c1vec : Tfidf.Vector := [("jwt", 1)]

unseal Rat.mul Rat.add Rat.sub Rat.inv Rat.ofScientific Nat.gcd in
/-- Witness for C1: one tree whose only node's content shares no term with
the prompt vector; its vector is empty, the cosine is 0 by the guard, and
classification is NEW with score 0. -/
theorem c1_multiplicative_boost_zero_cosine_witness :
    (0 : ℚ) < c1state.config.branchThreshold ∧
    (0 : ℚ) < c1state.config.extendThreshold ∧
    ((Gate.classify c1state c1vec).action = Gate.Action.new ∧
      (Gate.classify c1state c1vec).score = 0) :=
  ⟨by decide, by decide,
    c1_multiplicative_boost_zero_cosine c1state c1vec (by decide) (by decide)
      (by
        intro t ht
        have ht2 : t = c1tree :=
          List.mem_singleton.mp (show t ∈ [c1tree] from ht)
        subst ht2
        have hv : Gate.nodeVec c1engine "auth" = [] := by decide
        constructor
        · intro r hr
          have hr2 : r = Forest.NewNode "auth" 0 "p1" "n1" 0 := by
            have : some (Forest.NewNode "auth" 0 "p1" "n1" 0) = some r := by
              rw [← hr]; decide
            exact (Option.some.inj this).symm
          subst hr2
          show Tfidf.CosineSimilarity c1vec
            (Gate.nodeVec c1engine "auth") = 0
          rw [hv]
          unfold Tfidf.CosineSimilarity
          rw [if_pos (Or.inr rfl)]
        · intro leaf hleaf
          have hgl : c1tree.GetLeaves =
              [Forest.NewNode "auth" 0 "p1" "n1" 0] := by decide
          rw [hgl] at hleaf
          have hleaf2 : leaf = Forest.NewNode "auth" 0 "p1" "n1" 0 := by
            simpa using hleaf
          subst hleaf2
          show Tfidf.CosineSimilarity c1vec
            (Gate.nodeVec c1engine "auth") = 0
          rw [hv]
          unfold Tfidf.CosineSimilarity
          rw [if_pos (Or.inr rfl)])⟩

/-! ## Package `gate`: prompt processing and the Markov wiring (claim C10) -/

namespace Gate

/-- The repeated `if child != nil { child.Indexed = true }` pattern of
`Gate.apply` in `gate.go`, as an update through the returned pointer. -/
def markChildIndexed (r : Forest.Tree × Option Forest.Node) : Forest.Tree :=
  match r.2 with
  | none => r.1
  | some child =>
    { r.1 with nodes := alSet r.1.nodes child.id { child with indexed := true } }

/-- `Gate.preserveRoot` from `gate.go`: when the root is a leaf
(single-node tree), copy its content into a child — inheriting sources,
stats and the index flag — before bubble-up overwrites the root. -/
def preserveRoot (t : Forest.Tree) (cid : String) (now : Int) : Forest.Tree :=
  match t.Root with
  | none => t
  | some root =>
    if root.IsLeaf then
      let r := t.AddChild root.id root.content "" cid now
      match r.2 with
      | none => r.1
      | some child =>
        let child2 := { child with
          sources := child.sources ++ root.sources
          frequency := root.frequency
          weight := root.weight
          created := root.created
          lastAccessed := root.lastAccessed
          indexed := root.indexed }
        { r.1 with nodes := alSet r.1.nodes child.id child2 }
    else t

/-- `Gate.apply` from `gate.go` (current revision), with the generated ids
and the clock passed explicitly (`id1` for the preserved root copy or the
new tree's id, `id2` for the new child or root) and `bubbleUp` paced by
`fuel`. -/
def apply (g : GateState) (fuel : ℕ) (cls : Classification)
    (content source id1 id2 : String) (now : Int) : GateState :=
  match cls.action with
  | Action.new =>
    let tree := Forest.NewTree content source id1 id2 now
    let tree := match tree.Root with
      | some root =>
        let root2 := { root with indexed := true }
        { tree with nodes := alSet tree.nodes root.id root2 }
      | none => tree
    { g with forest := g.forest.AddTree tree now }
  | Action.branch =>
    let tree0 := g.forest.trees.getD cls.treeIdx Forest.junkTree
    let tree1 := preserveRoot tree0 id1 now
    let tree2 := markChildIndexed
      (tree1.AddChild tree1.rootId content source id2 now)
    let tree3 := bubbleUp g.config.bubbleUpTerms fuel tree2 tree2.rootId
    { g with forest :=
        { g.forest with trees := g.forest.trees.set cls.treeIdx tree3 } }
  | Action.extend =>
    let tree0 := g.forest.trees.getD cls.treeIdx Forest.junkTree
    match alGet tree0.nodes cls.leafId with
    | none =>
      let tree1 := preserveRoot tree0 id1 now
      let tree2 := markChildIndexed
        (tree1.AddChild tree1.rootId content source id2 now)
      let tree3 := bubbleUp g.config.bubbleUpTerms fuel tree2 tree2.rootId
      { g with forest :=
          { g.forest with trees := g.forest.trees.set cls.treeIdx tree3 } }
    | some leaf =>
      let pr := if leaf.parentId = "" then
          (preserveRoot tree0 id1 now, tree0.rootId)
        else (tree0, leaf.parentId)
      let tree2 := markChildIndexed
        (pr.1.AddChild pr.2 content source id2 now)
      let tree3 := bubbleUp g.config.bubbleUpTerms fuel tree2 tree2.rootId
      { g with forest :=
          { g.forest with trees := g.forest.trees.set cls.treeIdx tree3 } }

/-- `Gate.ProcessPrompt` from `gate.go` (current revision): tokenize,
classify, apply, record the Markov transition from the previous topic to
the tree the prompt landed in (self-transitions included), bump the
counters, add the document, prune over the cap (scrubbing removed
documents from the engine and vanished trees from the chain), and render
the context. -/
noncomputable def processPrompt (g : GateState) (fuel : ℕ)
    (prompt source id1 id2 : String) (now : Int) : GateState × String :=
  let tokens := Text.Tokenize prompt
  if tokens = [] then (g, "")
  else
    let vec := Tfidf.VectorizeTokens g.engine tokens
    let cls := classify g vec
    let g2 := apply g fuel cls prompt source id1 id2 now
    let currentTreeID :=
      if 0 < g2.forest.trees.length then
        if cls.action = Action.new then
          (g2.forest.trees.getLast?.getD Forest.junkTree).id
        else (g2.forest.trees.getD cls.treeIdx Forest.junkTree).id
      else ""
    let chain2 := { Markov.Record g2.chain g2.chain.lastTopic currentTreeID
      with lastTopic := currentTreeID }
    let forest2 := { g2.forest with meta :=
      { g2.forest.meta with
        totalPrompts := g2.forest.meta.totalPrompts + 1
        lastUpdate := (g2.forest.trees.getLast?.getD Forest.junkTree).lastAccessed } }
    let engine2 := Tfidf.AddDocument g2.engine tokens
    let g3 : GateState :=
      { g2 with forest := forest2, chain := chain2, engine := engine2 }
    let g4 :=
      if g3.forest.NodeCount > g3.config.memorySize then
        let pr := Forest.Forest.Prune g3.forest g3.config.memorySize
          g3.config.decayRate now
        let engine3 := pr.2.foldl
          (fun e c => Tfidf.RemoveDocument e (Text.Tokenize c)) g3.engine
        let chain3 := (g3.forest.trees.map (fun t => t.id)).foldl
          (fun ch tid =>
            if pr.1.trees.any (fun t2 => t2.id = tid) then ch
            else Markov.PruneTopic ch tid) g3.chain
        { g3 with forest := pr.1, engine := engine3, chain := chain3 }
      else g3
    (g4, GenerateContext g4)

end Gate

theorem length_alSet_le {α : Type} (m : List (String × α)) (k : String)
    (v : α) : (alSet m k v).length ≤ m.length + 1 := by
  induction m with
  | nil => simp [alSet]
  | cons p rest ih =>
    obtain ⟨k0, v0⟩ := p
    by_cases hk : k0 = k
    · simp [alSet, hk]
    · simp only [alSet, if_neg hk, List.length_cons]
      omega

theorem alGet_alSet_self_isSome {α : Type} (m : List (String × α))
    (k : String) (v : α) : (alGet (alSet m k v) k).isSome := by
  rw [alGet_alSet_self]
  rfl

theorem nodeCount_mk (ts : List Forest.Tree) (m : Forest.Meta) :
    Forest.Forest.NodeCount ⟨ts, m⟩ =
      ((ts.map Forest.Tree.NodeCount).sum : Int) := rfl

theorem addChild_shape (t : Forest.Tree) (pid content source cid : String)
    (now : Int) :
    (t.AddChild pid content source cid now).1.id = t.id ∧
    (t.AddChild pid content source cid now).1.rootId = t.rootId ∧
    (t.AddChild pid content source cid now).1.nodes.length ≤
      t.nodes.length + 1 ∧
    ∀ child, (t.AddChild pid content source cid now).2 = some child →
      (alGet (t.AddChild pid content source cid now).1.nodes child.id).isSome := by
  unfold Forest.Tree.AddChild
  cases hg : alGet t.nodes pid with
  | none =>
    refine ⟨rfl, rfl, Nat.le_succ _, ?_⟩
    intro child h
    simp at h
  | some parent =>
    dsimp only
    refine ⟨rfl, rfl, ?_, ?_⟩
    · refine le_trans (length_alSet_le _ _ _) ?_
      rw [length_alSet_present t.nodes pid _ (by simp [hg])]
    · intro child h
      obtain rfl := (Option.some.inj h).symm
      exact alGet_alSet_self_isSome _ _ _

theorem markChildIndexed_shape (r : Forest.Tree × Option Forest.Node)
    (h : ∀ child, r.2 = some child → (alGet r.1.nodes child.id).isSome) :
    (Gate.markChildIndexed r).id = r.1.id ∧
    (Gate.markChildIndexed r).rootId = r.1.rootId ∧
    (Gate.markChildIndexed r).nodes.length = r.1.nodes.length := by
  unfold Gate.markChildIndexed
  cases hc : r.2 with
  | none => exact ⟨rfl, rfl, rfl⟩
  | some child =>
    dsimp only
    exact ⟨rfl, rfl, length_alSet_present _ _ _ (h child hc)⟩

theorem preserveRoot_shape (t : Forest.Tree) (cid : String) (now : Int) :
    (Gate.preserveRoot t cid now).id = t.id ∧
    (Gate.preserveRoot t cid now).rootId = t.rootId ∧
    (Gate.preserveRoot t cid now).nodes.length ≤ t.nodes.length + 1 := by
  unfold Gate.preserveRoot
  cases hr : t.Root with
  | none => exact ⟨rfl, rfl, Nat.le_succ _⟩
  | some root =>
    dsimp only
    by_cases hleaf : root.IsLeaf = true
    · rw [if_pos hleaf]
      obtain ⟨hid, hrid, hlen, hch⟩ :=
        addChild_shape t root.id root.content "" cid now
      cases hc : (t.AddChild root.id root.content "" cid now).2 with
      | none => exact ⟨hid, hrid, hlen⟩
      | some child =>
        dsimp only
        refine ⟨hid, hrid, ?_⟩
        rw [length_alSet_present _ _ _ (hch child hc)]
        exact hlen
    · rw [if_neg hleaf]
      exact ⟨rfl, rfl, Nat.le_succ _⟩

theorem bubbleUp_shape (k : Int) : ∀ (fuel : ℕ) (t : Forest.Tree)
    (nid : String), ∃ ns, Gate.bubbleUp k fuel t nid = { t with nodes := ns } ∧
      ns.length = t.nodes.length := by
  intro fuel
  induction fuel with
  | zero =>
    intro t nid
    exact ⟨t.nodes, rfl, rfl⟩
  | succ fu ih =>
    have hfold : ∀ (ids : List String) (t0 : Forest.Tree),
        ∃ ns, ids.foldl (fun tr cid => Gate.bubbleUp k fu tr cid) t0 =
          { t0 with nodes := ns } ∧ ns.length = t0.nodes.length := by
      intro ids
      induction ids with
      | nil =>
        intro t0
        exact ⟨t0.nodes, rfl, rfl⟩
      | cons c cs ihl =>
        intro t0
        rw [List.foldl_cons]
        obtain ⟨ns1, h1, hl1⟩ := ih t0 c
        rw [h1]
        obtain ⟨ns2, h2, hl2⟩ := ihl { t0 with nodes := ns1 }
        refine ⟨ns2, h2, ?_⟩
        rw [hl2]
        exact hl1
    intro t nid
    rw [bubbleUp_succ]
    cases hg : alGet t.nodes nid with
    | none => exact ⟨t.nodes, rfl, rfl⟩
    | some node =>
      dsimp only
      obtain ⟨ns1, h1, hl1⟩ := hfold node.childIds t
      rw [h1]
      cases hg2 : alGet ({ t with nodes := ns1 } : Forest.Tree).nodes nid with
      | none => exact ⟨ns1, rfl, hl1⟩
      | some node1 =>
        dsimp only
        by_cases hleaf : node1.IsLeaf = true
        · rw [if_pos hleaf]
          exact ⟨ns1, rfl, hl1⟩
        · rw [if_neg hleaf]
          refine ⟨alSet ns1 nid _, rfl, ?_⟩
          rw [length_alSet_present ns1 nid _
            (Option.isSome_iff_exists.mpr ⟨node1, hg2⟩)]
          exact hl1

theorem sum_map_set_le_two (l : List Forest.Tree) (i : ℕ) (v : Forest.Tree)
    (h : v.NodeCount ≤ (l.getD i Forest.junkTree).NodeCount + 2) :
    ((l.set i v).map Forest.Tree.NodeCount).sum ≤
      (l.map Forest.Tree.NodeCount).sum + 2 := by
  induction l generalizing i with
  | nil => simp
  | cons a as ih =>
    cases i with
    | zero =>
      simp only [List.set, List.map_cons, List.sum_cons]
      have ha : v.NodeCount ≤ a.NodeCount + 2 := by simpa using h
      omega
    | succ j =>
      simp only [List.set, List.map_cons, List.sum_cons]
      have := ih j (by simpa using h)
      omega

theorem getD_set_self {α : Type} (l : List α) (i : ℕ) (v d : α)
    (h : i < l.length) : (l.set i v).getD i d = v := by
  induction l generalizing i with
  | nil => simp at h
  | cons a as ih =>
    cases i with
    | zero => rfl
    | succ j =>
      simp only [List.set]
      exact ih j (by simpa using h)

theorem apply_same (g : Gate.GateState) (fuel : ℕ)
    (cls : Gate.Classification) (content source id1 id2 : String)
    (now : Int) :
    (Gate.apply g fuel cls content source id1 id2 now).chain = g.chain ∧
    (Gate.apply g fuel cls content source id1 id2 now).engine = g.engine ∧
    (Gate.apply g fuel cls content source id1 id2 now).config = g.config := by
  unfold Gate.apply
  cases cls.action with
  | new => exact ⟨rfl, rfl, rfl⟩
  | branch => exact ⟨rfl, rfl, rfl⟩
  | extend =>
    dsimp only
    cases alGet (g.forest.trees.getD cls.treeIdx Forest.junkTree).nodes
        cls.leafId with
    | none => exact ⟨rfl, rfl, rfl⟩
    | some leaf => exact ⟨rfl, rfl, rfl⟩

theorem buildChild_shape (t0 t1 : Forest.Tree) (k : Int) (fuel : ℕ)
    (pid content source id2 : String) (now : Int)
    (h1id : t1.id = t0.id) (h1len : t1.nodes.length ≤ t0.nodes.length + 1) :
    (Gate.bubbleUp k fuel
      (Gate.markChildIndexed (t1.AddChild pid content source id2 now))
      (Gate.markChildIndexed (t1.AddChild pid content source id2 now)).rootId).id
        = t0.id ∧
    (Gate.bubbleUp k fuel
      (Gate.markChildIndexed (t1.AddChild pid content source id2 now))
      (Gate.markChildIndexed
        (t1.AddChild pid content source id2 now)).rootId).NodeCount ≤
      t0.NodeCount + 2 := by
  obtain ⟨aid, arid, alen, ach⟩ := addChild_shape t1 pid content source id2 now
  obtain ⟨mid, mrid, mlen⟩ := markChildIndexed_shape
    (t1.AddChild pid content source id2 now) ach
  obtain ⟨ns, hb, hbl⟩ := bubbleUp_shape k fuel
    (Gate.markChildIndexed (t1.AddChild pid content source id2 now))
    (Gate.markChildIndexed (t1.AddChild pid content source id2 now)).rootId
  rw [hb]
  constructor
  · show (Gate.markChildIndexed (t1.AddChild pid content source id2 now)).id
      = t0.id
    rw [mid, aid, h1id]
  · show ns.length ≤ t0.nodes.length + 2
    rw [hbl, mlen]
    omega

theorem apply_trees (g : Gate.GateState) (fuel : ℕ)
    (cls : Gate.Classification) (content source id1 id2 : String)
    (now : Int) (hact : cls.action ≠ Gate.Action.new) :
    ∃ T, (Gate.apply g fuel cls content source id1 id2 now).forest.trees =
        g.forest.trees.set cls.treeIdx T ∧
      T.id = (g.forest.trees.getD cls.treeIdx Forest.junkTree).id ∧
      T.NodeCount ≤
        (g.forest.trees.getD cls.treeIdx Forest.junkTree).NodeCount + 2 := by
  unfold Gate.apply
  cases hactc : cls.action with
  | new => exact absurd hactc hact
  | branch =>
    dsimp only
    refine ⟨_, rfl, ?_, ?_⟩
    · exact (buildChild_shape (g.forest.trees.getD cls.treeIdx Forest.junkTree)
        (Gate.preserveRoot (g.forest.trees.getD cls.treeIdx Forest.junkTree)
          id1 now)
        g.config.bubbleUpTerms fuel _ content source id2 now
        (preserveRoot_shape _ id1 now).1 (preserveRoot_shape _ id1 now).2.2).1
    · exact (buildChild_shape (g.forest.trees.getD cls.treeIdx Forest.junkTree)
        (Gate.preserveRoot (g.forest.trees.getD cls.treeIdx Forest.junkTree)
          id1 now)
        g.config.bubbleUpTerms fuel _ content source id2 now
        (preserveRoot_shape _ id1 now).1 (preserveRoot_shape _ id1 now).2.2).2
  | extend =>
    dsimp only
    cases hleafget : alGet (g.forest.trees.getD cls.treeIdx
        Forest.junkTree).nodes cls.leafId with
    | none =>
      dsimp only
      refine ⟨_, rfl, ?_, ?_⟩
      · exact (buildChild_shape (g.forest.trees.getD cls.treeIdx Forest.junkTree)
          (Gate.preserveRoot (g.forest.trees.getD cls.treeIdx Forest.junkTree)
            id1 now)
          g.config.bubbleUpTerms fuel _ content source id2 now
          (preserveRoot_shape _ id1 now).1 (preserveRoot_shape _ id1 now).2.2).1
      · exact (buildChild_shape (g.forest.trees.getD cls.treeIdx Forest.junkTree)
          (Gate.preserveRoot (g.forest.trees.getD cls.treeIdx Forest.junkTree)
            id1 now)
          g.config.bubbleUpTerms fuel _ content source id2 now
          (preserveRoot_shape _ id1 now).1 (preserveRoot_shape _ id1 now).2.2).2
    | some leaf =>
      dsimp only
      by_cases hpid : leaf.parentId = ""
      · rw [if_pos hpid]
        dsimp only
        refine ⟨_, rfl, ?_, ?_⟩
        · exact (buildChild_shape
            (g.forest.trees.getD cls.treeIdx Forest.junkTree)
            (Gate.preserveRoot (g.forest.trees.getD cls.treeIdx Forest.junkTree)
              id1 now)
            g.config.bubbleUpTerms fuel _ content source id2 now
            (preserveRoot_shape _ id1 now).1
            (preserveRoot_shape _ id1 now).2.2).1
        · exact (buildChild_shape
            (g.forest.trees.getD cls.treeIdx Forest.junkTree)
            (Gate.preserveRoot (g.forest.trees.getD cls.treeIdx Forest.junkTree)
              id1 now)
            g.config.bubbleUpTerms fuel _ content source id2 now
            (preserveRoot_shape _ id1 now).1
            (preserveRoot_shape _ id1 now).2.2).2
      · rw [if_neg hpid]
        dsimp only
        refine ⟨_, rfl, ?_, ?_⟩
        · exact (buildChild_shape
            (g.forest.trees.getD cls.treeIdx Forest.junkTree)
            (g.forest.trees.getD cls.treeIdx Forest.junkTree)
            g.config.bubbleUpTerms fuel _ content source id2 now rfl
            (Nat.le_succ _)).1
        · exact (buildChild_shape
            (g.forest.trees.getD cls.treeIdx Forest.junkTree)
            (g.forest.trees.getD cls.treeIdx Forest.junkTree)
            g.config.bubbleUpTerms fuel _ content source id2 now rfl
            (Nat.le_succ _)).2

theorem apply_nodeCount (g : Gate.GateState) (fuel : ℕ)
    (cls : Gate.Classification) (content source id1 id2 : String)
    (now : Int) :
    (Gate.apply g fuel cls content source id1 id2 now).forest.NodeCount ≤
      g.forest.NodeCount + 2 := by
  by_cases hact : cls.action = Gate.Action.new
  · unfold Gate.apply
    rw [hact]
    dsimp only
    have hroot : (Forest.NewTree content source id1 id2 now).Root =
        some (Forest.NewNode content 0 source id2 now) := by
      unfold Forest.Tree.Root Forest.NewTree
      simp [alGet]
    rw [hroot]
    dsimp only
    unfold Forest.Forest.NodeCount Forest.Forest.nodeCountNat
      Forest.Forest.AddTree
    dsimp only
    rw [List.map_append, List.sum_append]
    have hlen : (alSet (Forest.NewTree content source id1 id2 now).nodes
        (Forest.NewNode content 0 source id2 now).id
        { Forest.NewNode content 0 source id2 now with indexed := true }).length
        = 1 := by
      rw [length_alSet_present]
      · rfl
      · unfold Forest.NewTree
        simp [alGet, Forest.NewNode]
    simp only [List.map_cons, List.map_nil, List.sum_cons, List.sum_nil]
    unfold Forest.Tree.NodeCount
    dsimp only
    rw [hlen]
    push_cast
    omega
  · obtain ⟨T, htr, _, hcnt⟩ :=
      apply_trees g fuel cls content source id1 id2 now hact
    unfold Forest.Forest.NodeCount Forest.Forest.nodeCountNat
    rw [htr]
    have := sum_map_set_le_two g.forest.trees cls.treeIdx T hcnt
    exact_mod_cast this

/-- C10: `ProcessPrompt` records a transition after every tokenizable
prompt, and `Record` does not exclude `from = to`.  When the prompt
classifies into the tree already holding the last topic (a non-NEW
classification whose target tree's id is the chain's last topic) and the
cap leaves room for the at-most-two new nodes (so pruning is skipped),
both `counts[t][t]` and `totals[t]` are incremented and the last topic
stays `t` — the self-transition is counted, raising `P(t → t)`. -/
theorem c10_record_self_transition (g : Gate.GateState) (fuel : ℕ)
    (prompt source id1 id2 : String) (now : Int)
    (htok : Text.Tokenize prompt ≠ [])
    (hcap : g.forest.NodeCount + 2 ≤ g.config.memorySize)
    (hact : (Gate.classify g (Tfidf.VectorizeTokens g.engine
      (Text.Tokenize prompt))).action ≠ Gate.Action.new)
    (hidx : (Gate.classify g (Tfidf.VectorizeTokens g.engine
      (Text.Tokenize prompt))).treeIdx < g.forest.trees.length)
    (hid : (g.forest.trees.getD (Gate.classify g (Tfidf.VectorizeTokens
      g.engine (Text.Tokenize prompt))).treeIdx Forest.junkTree).id =
      g.chain.lastTopic)
    (hlast : g.chain.lastTopic ≠ "") :
    alGetD (alGetD (Gate.processPrompt g fuel prompt source id1 id2
        now).1.chain.counts g.chain.lastTopic [])
      g.chain.lastTopic 0 =
      alGetD (alGetD g.chain.counts g.chain.lastTopic [])
        g.chain.lastTopic 0 + 1 ∧
    alGetD (Gate.processPrompt g fuel prompt source id1 id2
        now).1.chain.totals g.chain.lastTopic 0 =
      alGetD g.chain.totals g.chain.lastTopic 0 + 1 ∧
    (Gate.processPrompt g fuel prompt source id1 id2 now).1.chain.lastTopic =
      g.chain.lastTopic := by
  set cls := Gate.classify g (Tfidf.VectorizeTokens g.engine
    (Text.Tokenize prompt)) with hclsdef
  obtain ⟨hchain, heng, hconf⟩ :=
    apply_same g fuel cls prompt source id1 id2 now
  obtain ⟨T, htr, hTid, _⟩ :=
    apply_trees g fuel cls prompt source id1 id2 now hact
  have hcnt := apply_nodeCount g fuel cls prompt source id1 id2 now
  have hlen : 0 < (Gate.apply g fuel cls prompt source id1 id2
      now).forest.trees.length := by
    rw [htr, List.length_set]
    omega
  have hcur : ((Gate.apply g fuel cls prompt source id1 id2
      now).forest.trees.getD cls.treeIdx Forest.junkTree).id =
      g.chain.lastTopic := by
    rw [htr, getD_set_self _ _ _ _ hidx, hTid, hid]
  have hskip : ¬((((Gate.apply g fuel cls prompt source id1 id2
      now).forest.trees.map Forest.Tree.NodeCount).sum : Int) >
      g.config.memorySize) := by
    have heq : ((((Gate.apply g fuel cls prompt source id1 id2
        now).forest.trees.map Forest.Tree.NodeCount).sum : Int)) =
        (Gate.apply g fuel cls prompt source id1 id2 now).forest.NodeCount :=
      rfl
    omega
  have hfinal : (Gate.processPrompt g fuel prompt source id1 id2 now).1.chain =
      { Markov.Record g.chain g.chain.lastTopic g.chain.lastTopic with
        lastTopic := g.chain.lastTopic } := by
    unfold Gate.processPrompt
    rw [if_neg htok]
    dsimp only
    rw [← hclsdef]
    rw [if_pos hlen, if_neg hact]
    rw [hcur, hchain]
    rw [hconf, nodeCount_mk]
    rw [if_neg hskip]
  refine ⟨?_, ?_, ?_⟩
  · rw [hfinal]
    show alGetD (alGetD (Markov.Record g.chain g.chain.lastTopic
      g.chain.lastTopic).counts g.chain.lastTopic []) g.chain.lastTopic 0 = _
    unfold Markov.Record
    rw [if_neg (by simp [hlast])]
    dsimp only
    simp [alGetD, alGet_alSet_self]
  · rw [hfinal]
    show alGetD (Markov.Record g.chain g.chain.lastTopic
      g.chain.lastTopic).totals g.chain.lastTopic 0 = _
    unfold Markov.Record
    rw [if_neg (by simp [hlast])]
    dsimp only
    simp [alGetD, alGet_alSet_self]
  · rw [hfinal]

/-- The C10 witness state: one tree ("t1", root "n1" with content "jwt"),
the corpus knowing "jwt", and "t1" already the last topic. -/
def c10engine : Tfidf.Engine := { docFreq := [("jwt", 1)], totalDocs := 1 }

def c10root : Forest.Node := Forest.NewNode "jwt" 0 "p0" "n1" 0

def c10tree : Forest.Tree := Forest.NewTree "jwt" "p0" "t1" "n1" 0

def c10state : Gate.GateState :=
  { forest := { trees := [c10tree], meta := ⟨1, 0, 0⟩ }
    engine := c10engine
    chain := { counts := [], totals := [], lastTopic := "t1" }
    config := Gate.DefaultConfig }

unseal Rat.mul Rat.add Rat.sub Rat.inv Rat.ofScientific Nat.gcd Nat.log in
/-- Concrete classify evaluation for the C10 witness: the prompt "jwt" has
cosine 1 against the root, boost factor is neutral (no recorded
transitions yet), and the score 1 clears the extend threshold. -/
theorem c10_classify_eval :
    Gate.classify c10state (Tfidf.VectorizeTokens c10state.engine
      (Text.Tokenize "jwt")) =
      { action := Gate.Action.extend, treeIdx := 0, leafId := "",
        score := 1 } := by
  have hvec : Tfidf.VectorizeTokens c10state.engine (Text.Tokenize "jwt") =
      [("jwt", 1)] := by decide
  have hnv : Gate.nodeVec c10state.engine c10root.content = [("jwt", 1)] := by
    decide
  have hcos : Tfidf.CosineSimilarity [("jwt", (1 : ℚ))] [("jwt", 1)] = 1 := by
    unfold Tfidf.CosineSimilarity
    rw [if_neg (by simp)]
    dsimp only
    rw [mergeCosine_self]
    dsimp only
    rw [show Tfidf.sumSq [("jwt", (1 : ℚ))] = 1 from by norm_num [Tfidf.sumSq]]
    rw [Rat.cast_one, Real.sqrt_one]
    rw [if_neg (by norm_num)]
    norm_num
  rw [hvec]
  unfold Gate.classify
  rw [if_neg (by decide)]
  dsimp only
  rw [show c10state.forest.trees.enum = [(0, c10tree)] from rfl]
  rw [List.foldl_cons, List.foldl_nil]
  dsimp only
  rw [show c10tree.Root = some c10root from rfl]
  dsimp only
  rw [if_pos (show c10state.config.transitionBoost > 0 ∧
      c10state.chain.lastTopic ≠ "" from ⟨by decide, by decide⟩)]
  rw [show (1 + c10state.config.transitionBoost *
      Markov.Probability c10state.chain c10state.chain.lastTopic c10tree.id
      : ℚ) = 1 from by decide]
  rw [Rat.cast_one, hnv, hcos, mul_one]
  rw [if_pos (by norm_num : (1 : ℝ) > 0)]
  rw [show c10tree.GetLeaves = [c10root] from by decide]
  rw [List.foldl_cons, List.foldl_nil]
  dsimp only
  rw [hnv, hcos, mul_one]
  rw [if_neg (lt_irrefl (1 : ℝ))]
  have hext : ((c10state.config.extendThreshold : ℚ) : ℝ) ≤ 1 := by
    rw [show (c10state.config.extendThreshold : ℚ) = 55 / 100 from by decide]
    push_cast
    norm_num
  rw [if_pos hext]

unseal Rat.mul Rat.add Rat.sub Rat.inv Rat.ofScientific Nat.gcd Nat.log in
/-- Witness for C10: processing the prompt "jwt" while "t1" (whose root
matches it) is already the last topic increments `counts["t1"]["t1"]` and
`totals["t1"]` from 0 to 1 and keeps the last topic at "t1". -/
theorem c10_record_self_transition_witness :
    Text.Tokenize "jwt" ≠ [] ∧
    c10state.forest.NodeCount + 2 ≤ c10state.config.memorySize ∧
    (Gate.classify c10state (Tfidf.VectorizeTokens c10state.engine
      (Text.Tokenize "jwt"))).action ≠ Gate.Action.new ∧
    (Gate.classify c10state (Tfidf.VectorizeTokens c10state.engine
      (Text.Tokenize "jwt"))).treeIdx < c10state.forest.trees.length ∧
    (c10state.forest.trees.getD (Gate.classify c10state
      (Tfidf.VectorizeTokens c10state.engine (Text.Tokenize "jwt"))).treeIdx
      Forest.junkTree).id = c10state.chain.lastTopic ∧
    c10state.chain.lastTopic ≠ "" ∧
    (alGetD (alGetD (Gate.processPrompt c10state 3 "jwt" "p1" "x1" "x2"
        0).1.chain.counts c10state.chain.lastTopic [])
      c10state.chain.lastTopic 0 =
      alGetD (alGetD c10state.chain.counts c10state.chain.lastTopic [])
        c10state.chain.lastTopic 0 + 1 ∧
    alGetD (Gate.processPrompt c10state 3 "jwt" "p1" "x1" "x2"
        0).1.chain.totals c10state.chain.lastTopic 0 =
      alGetD c10state.chain.totals c10state.chain.lastTopic 0 + 1 ∧
    (Gate.processPrompt c10state 3 "jwt" "p1" "x1" "x2" 0).1.chain.lastTopic =
      c10state.chain.lastTopic) :=
  ⟨by decide, by decide,
    by rw [c10_classify_eval]; decide,
    by rw [c10_classify_eval]; decide,
    by rw [c10_classify_eval]; decide,
    by decide,
    c10_record_self_transition c10state 3 "jwt" "p1" "x1" "x2" 0
      (by decide) (by decide)
      (by rw [c10_classify_eval]; decide)
      (by rw [c10_classify_eval]; decide)
      (by rw [c10_classify_eval]; decide)
      (by decide)⟩

/-! ## Claim C3: the Indexed-flag discipline -/

/-- The string is the content of an indexed node somewhere in the
forest. -/
def HasIndexedContent (f : Forest.Forest) (s : String) : Prop :=
  ∃ t ∈ f.trees, ∃ p ∈ t.nodes, p.2.indexed = true ∧ p.2.content = s

theorem bubbleUp_binding (k : Int) : ∀ (fuel : ℕ) (t : Forest.Tree)
    (nid id : String) (n' : Forest.Node),
    alGet (Gate.bubbleUp k fuel t nid).nodes id = some n' →
    alGet t.nodes id = some n' ∨ n'.indexed = false := by
  intro fuel
  induction fuel with
  | zero =>
    intro t nid id n' h
    exact Or.inl h
  | succ fu ih =>
    have hfold : ∀ (ids : List String) (t0 : Forest.Tree) (id : String)
        (n' : Forest.Node),
        alGet (ids.foldl (fun tr cid => Gate.bubbleUp k fu tr cid) t0).nodes
          id = some n' →
        alGet t0.nodes id = some n' ∨ n'.indexed = false := by
      intro ids
      induction ids with
      | nil =>
        intro t0 id n' h
        exact Or.inl h
      | cons c cs ihl =>
        intro t0 id n' h
        rw [List.foldl_cons] at h
        rcases ihl (Gate.bubbleUp k fu t0 c) id n' h with h1 | h1
        · exact ih t0 c id n' h1
        · exact Or.inr h1
    intro t nid id n' h
    rw [bubbleUp_succ] at h
    cases hg : alGet t.nodes nid with
    | none =>
      rw [hg] at h
      exact Or.inl h
    | some node =>
      rw [hg] at h
      dsimp only at h
      cases hg2 : alGet (node.childIds.foldl
          (fun tr cid => Gate.bubbleUp k fu tr cid) t).nodes nid with
      | none =>
        rw [hg2] at h
        exact hfold _ _ _ _ h
      | some node1 =>
        rw [hg2] at h
        dsimp only at h
        by_cases hleaf : node1.IsLeaf = true
        · rw [if_pos hleaf] at h
          exact hfold _ _ _ _ h
        · rw [if_neg hleaf] at h
          dsimp only at h
          by_cases hid : nid = id
          · subst hid
            rw [alGet_alSet_self] at h
            refine Or.inr ?_
            rw [← Option.some.inj h]
          · rw [alGet_alSet_ne _ _ _ _ (fun he => hid he.symm)] at h
            exact hfold _ _ _ _ h

theorem bubbleUp_leaf_binding (k : Int) : ∀ (fuel : ℕ) (t : Forest.Tree)
    (nid id : String) (n : Forest.Node),
    alGet t.nodes id = some n → n.IsLeaf = true →
    alGet (Gate.bubbleUp k fuel t nid).nodes id = some n := by
  intro fuel
  induction fuel with
  | zero =>
    intro t nid id n h _
    exact h
  | succ fu ih =>
    have hfold : ∀ (ids : List String) (t0 : Forest.Tree) (id : String)
        (n : Forest.Node), alGet t0.nodes id = some n → n.IsLeaf = true →
        alGet ((ids.foldl (fun tr cid => Gate.bubbleUp k fu tr cid)
          t0)).nodes id = some n := by
      intro ids
      induction ids with
      | nil =>
        intro t0 id n h _
        exact h
      | cons c cs ihl =>
        intro t0 id n h hl
        rw [List.foldl_cons]
        exact ihl _ _ _ (ih t0 c id n h hl) hl
    intro t nid id n h hl
    rw [bubbleUp_succ]
    cases hg : alGet t.nodes nid with
    | none => exact h
    | some node =>
      dsimp only
      have h1 := hfold node.childIds t id n h hl
      cases hg2 : alGet (node.childIds.foldl
          (fun tr cid => Gate.bubbleUp k fu tr cid) t).nodes nid with
      | none => exact h1
      | some node1 =>
        dsimp only
        by_cases hleaf : node1.IsLeaf = true
        · rw [if_pos hleaf]
          exact h1
        · rw [if_neg hleaf]
          dsimp only
          by_cases hid : nid = id
          · subst hid
            rw [h1] at hg2
            have hn : n = node1 := Option.some.inj hg2
            rw [← hn] at hleaf
            exact absurd hl hleaf
          · exact (alGet_alSet_ne _ _ _ _ (fun he => hid he.symm)).trans h1

theorem removeNode_origin (t : Forest.Tree) (id : String) :
    ∀ q ∈ (t.RemoveNode id).nodes, ∃ p ∈ t.nodes,
      p.2.content = q.2.content ∧ p.2.indexed = q.2.indexed := by
  intro q hq
  unfold Forest.Tree.RemoveNode at hq
  cases hg : alGet t.nodes id with
  | none =>
    rw [hg] at hq
    exact ⟨q, hq, rfl, rfl⟩
  | some node =>
    rw [hg] at hq
    dsimp only at hq
    have hq1 := (removeLoop_sublist _ _).mem hq
    by_cases hpid : node.parentId ≠ ""
    · rw [if_pos hpid] at hq1
      cases hgp : alGet t.nodes node.parentId with
      | none =>
        rw [hgp] at hq1
        exact ⟨q, hq1, rfl, rfl⟩
      | some parent =>
        rw [hgp] at hq1
        dsimp only at hq1
        rcases mem_alSet hq1 with h | h
        · exact ⟨q, h, rfl, rfl⟩
        · refine ⟨(node.parentId, parent), alGet_eq_some_mem hgp, ?_, ?_⟩
          · rw [h]
          · rw [h]
    · rw [if_neg hpid] at hq1
      exact ⟨q, hq1, rfl, rfl⟩

theorem mem_indexedContents {t : Forest.Tree} {s : String}
    (h : s ∈ Forest.indexedContents t) :
    ∃ p ∈ t.nodes, p.2.indexed = true ∧ p.2.content = s := by
  unfold Forest.indexedContents at h
  obtain ⟨n, hn, hsome⟩ := List.mem_filterMap.mp h
  obtain ⟨p, hp, hps⟩ := List.mem_map.mp hn
  by_cases hi : n.indexed = true
  · rw [if_pos hi] at hsome
    refine ⟨p, hp, ?_, ?_⟩
    · rw [hps]
      exact hi
    · rw [hps]
      exact Option.some.inj hsome
  · rw [if_neg hi] at hsome
    simp at hsome

theorem leafEntry_origin {f : Forest.Forest} {now : Int} {d : ℚ}
    {e : Forest.LeafEntry} (h : e ∈ Forest.pruneEntries f now d) :
    ∃ t ∈ f.trees, ∃ p ∈ t.nodes, p.2 = e.node := by
  obtain ⟨hidx, hleaf, _⟩ := mem_pruneEntries h
  refine ⟨f.trees.getD e.treeIdx Forest.junkTree, ?_, ?_⟩
  · rw [List.getD_eq_get _ _ hidx]
    exact List.get_mem _ _ _
  · obtain ⟨hmem, _⟩ := List.mem_filter.mp hleaf
    obtain ⟨p, hp, hps⟩ := List.mem_map.mp hmem
    exact ⟨p, hp, hps⟩

theorem removed1_reports {f : Forest.Forest} {now : Int} {d : ℚ}
    {entry : Forest.LeafEntry} (harg : entry ∈ Forest.pruneEntries f now d)
    {s : String}
    (hs : s ∈ (if entry.node.indexed = true then [entry.node.content]
      else [])) :
    HasIndexedContent f s := by
  by_cases hi : entry.node.indexed = true
  · rw [if_pos hi] at hs
    have hsc : s = entry.node.content := by simpa using hs
    obtain ⟨t, ht, p, hp, hps⟩ := leafEntry_origin harg
    exact ⟨t, ht, p, hp, by rw [hps]; exact hi, by rw [hps, hsc]⟩
  · rw [if_neg hi] at hs
    simp at hs

theorem tree2_reports {f : Forest.Forest} {now : Int} {d : ℚ}
    {entry : Forest.LeafEntry} (harg : entry ∈ Forest.pruneEntries f now d)
    {s : String}
    (hs : s ∈ Forest.indexedContents ((f.trees.getD entry.treeIdx
      Forest.junkTree).RemoveNode entry.node.id)) :
    HasIndexedContent f s := by
  obtain ⟨q, hq, hqi, hqc⟩ := mem_indexedContents hs
  obtain ⟨p2, hp2, hc2, hi2⟩ := removeNode_origin _ _ q hq
  have hidx := (mem_pruneEntries harg).1
  refine ⟨f.trees.getD entry.treeIdx Forest.junkTree, ?_, p2, hp2, ?_, ?_⟩
  · rw [List.getD_eq_get _ _ hidx]
    exact List.get_mem _ _ _
  · rw [hi2]
    exact hqi
  · rw [hc2]
    exact hqc

theorem hasIndexed_lift_set {f : Forest.Forest} {now : Int} {d : ℚ}
    {entry : Forest.LeafEntry} (harg : entry ∈ Forest.pruneEntries f now d)
    {s : String}
    (h : HasIndexedContent ⟨f.trees.set entry.treeIdx
      ((f.trees.getD entry.treeIdx Forest.junkTree).RemoveNode entry.node.id),
      f.meta⟩ s) :
    HasIndexedContent f s := by
  obtain ⟨t', ht', p, hp, hpi, hpc⟩ := h
  rcases List.mem_or_eq_of_mem_set ht' with h1 | h1
  · exact ⟨t', h1, p, hp, hpi, hpc⟩
  · subst h1
    obtain ⟨p2, hp2, hc2, hi2⟩ := removeNode_origin _ _ p hp
    have hidx := (mem_pruneEntries harg).1
    refine ⟨f.trees.getD entry.treeIdx Forest.junkTree, ?_, p2, hp2, ?_, ?_⟩
    · rw [List.getD_eq_get _ _ hidx]
      exact List.get_mem _ _ _
    · rw [hi2]
      exact hpi
    · rw [hc2]
      exact hpc

theorem hasIndexed_lift_erase {f : Forest.Forest} {i : ℕ} {s : String}
    (h : HasIndexedContent ⟨f.trees.eraseIdx i, f.meta⟩ s) :
    HasIndexedContent f s := by
  obtain ⟨t', ht', hrest⟩ := h
  exact ⟨t', (List.eraseIdx_sublist f.trees i).mem ht', hrest⟩

theorem prune_reports_indexed (f : Forest.Forest) (m : Int) (d : ℚ)
    (now : Int) : ∀ s ∈ (Forest.Forest.Prune f m d now).2,
      HasIndexedContent f s := by
  induction f, m, d, now using Forest.Forest.Prune.induct with
  | case1 f m d now hover entries he htr =>
    intro s hs
    rw [Forest.Forest.Prune.eq_def] at hs
    dsimp only at hs
    rw [if_pos hover,
      if_pos (show Forest.pruneEntries f now d = [] from he),
      dif_pos htr] at hs
    simp at hs
  | case2 f m d now hover entries he htr worstIdx f2 ih =>
    intro s hs
    rw [Forest.Forest.Prune.eq_def] at hs
    dsimp only at hs
    rw [if_pos hover,
      if_pos (show Forest.pruneEntries f now d = [] from he),
      dif_neg htr] at hs
    dsimp only at hs
    rcases List.mem_append.mp hs with h | h
    · obtain ⟨p, hp, hpi, hpc⟩ := mem_indexedContents h
      have hlt := Forest.worstTreeIdx_lt f.trees now d htr
      refine ⟨f.trees.getD (Forest.worstTreeIdx f.trees now d)
        Forest.junkTree, ?_, p, hp, hpi, hpc⟩
      rw [List.getD_eq_get _ _ hlt]
      exact List.get_mem _ _ _
    · exact hasIndexed_lift_erase (ih s h)
  | case3 f m d now hover entries hne harg =>
    intro s hs
    rw [Forest.Forest.Prune.eq_def] at hs
    dsimp only at hs
    rw [if_pos hover, if_neg (show ¬Forest.pruneEntries f now d = [] from hne),
      (show List.argmin Forest.LeafEntry.score (Forest.pruneEntries f now d) =
        none from harg)] at hs
    simp at hs
  | case4 f m d now hover entries hne entry harg tree tree2 removed1 step f2 hguard ih =>
    intro s hs
    unfold entries at hne harg
    unfold f2 step removed1 tree2 tree at hguard ih
    simp only [dite_eq_ite] at hguard ih
    rw [Forest.Forest.Prune.eq_def] at hs
    dsimp only at hs
    rw [if_pos hover, if_neg hne, harg] at hs
    dsimp only at hs
    rw [if_pos hguard] at hs
    dsimp only at hs
    have hargm := List.argmin_mem harg
    by_cases hle : ((f.trees.getD entry.treeIdx
        Forest.junkTree).RemoveNode entry.node.id).NodeCount ≤ 1
    · rw [if_pos hle] at hs ih
      dsimp only at hs
      rcases List.mem_append.mp hs with h | h
      · rcases List.mem_append.mp h with h1 | h1
        · exact removed1_reports hargm h1
        · exact tree2_reports hargm h1
      · exact hasIndexed_lift_erase (ih s h)
    · rw [if_neg hle] at hs ih
      dsimp only at hs
      rcases List.mem_append.mp hs with h | h
      · exact removed1_reports hargm h
      · exact hasIndexed_lift_set hargm (ih s h)
  | case5 f m d now hover entries hne entry harg tree tree2 removed1 step f2 hguard =>
    intro s hs
    unfold entries at hne harg
    unfold f2 step removed1 tree2 tree at hguard
    simp only [dite_eq_ite] at hguard
    rw [Forest.Forest.Prune.eq_def] at hs
    dsimp only at hs
    rw [if_pos hover, if_neg hne, harg] at hs
    dsimp only at hs
    rw [if_neg hguard] at hs
    dsimp only at hs
    have hargm := List.argmin_mem harg
    by_cases hle : ((f.trees.getD entry.treeIdx
        Forest.junkTree).RemoveNode entry.node.id).NodeCount ≤ 1
    · rw [if_pos hle] at hs
      rcases List.mem_append.mp hs with h | h
      · exact removed1_reports hargm h
      · exact tree2_reports hargm h
    · rw [if_neg hle] at hs
      exact removed1_reports hargm hs
  | case6 f m d now hover =>
    intro s hs
    rw [Forest.Forest.Prune.eq_def] at hs
    dsimp only at hs
    rw [if_neg hover] at hs
    simp at hs

theorem apply_new_root_indexed (g : Gate.GateState) (fuel : ℕ)
    (cls : Gate.Classification) (content source id1 id2 : String) (now : Int)
    (hact : cls.action = Gate.Action.new) :
    ∀ r, ((Gate.apply g fuel cls content source id1 id2
      now).forest.trees.getLast?.getD Forest.junkTree).Root = some r →
      r.indexed = true := by
  intro r hr
  have hT : ((Gate.apply g fuel cls content source id1 id2
      now).forest.trees.getLast?.getD Forest.junkTree).Root =
      some { Forest.NewNode content 0 source id2 now with indexed := true } := by
    unfold Gate.apply
    rw [hact]
    dsimp only
    rw [show (Forest.NewTree content source id1 id2 now).Root =
      some (Forest.NewNode content 0 source id2 now) from by
        unfold Forest.Tree.Root Forest.NewTree
        simp [alGet]]
    dsimp only
    unfold Forest.Forest.AddTree
    dsimp only
    rw [List.getLast?_concat, Option.getD_some]
    unfold Forest.Tree.Root
    dsimp only
    rw [show (Forest.NewNode content 0 source id2 now).id = id2 from rfl,
      show (Forest.NewTree content source id1 id2 now).rootId = id2 from rfl]
    rw [alGet_alSet_self]
  rw [hT] at hr
  rw [← Option.some.inj hr]

theorem insertion_marks_indexed (t : Forest.Tree)
    (pid content source cid : String) (now : Int) (k : Int) (fuel : ℕ)
    (nid : String) (hp : (alGet t.nodes pid).isSome) :
    ∃ child', alGet (Gate.bubbleUp k fuel (Gate.markChildIndexed
        (t.AddChild pid content source cid now)) nid).nodes cid =
      some child' ∧ child'.indexed = true ∧ child'.IsLeaf = true := by
  obtain ⟨parent, hparent⟩ := Option.isSome_iff_exists.mp hp
  have hbind : alGet (Gate.markChildIndexed
      (t.AddChild pid content source cid now)).nodes cid =
      some { { Forest.NewNode content (parent.depth + 1) source cid now with
        parentId := pid } with indexed := true } := by
    unfold Forest.Tree.AddChild Gate.markChildIndexed
    rw [hparent]
    dsimp only
    rw [show ({ Forest.NewNode content (parent.depth + 1) source cid now with
      parentId := pid } : Forest.Node).id = cid from rfl]
    rw [alGet_alSet_self]
  exact ⟨_, bubbleUp_leaf_binding k fuel _ nid cid _ hbind rfl, rfl, rfl⟩

theorem preserveRoot_copy (t : Forest.Tree) (cid : String) (now : Int)
    (root : Forest.Node) (hroot : t.Root = some root)
    (hleaf : root.IsLeaf = true) (hp : (alGet t.nodes root.id).isSome) :
    ∃ child', alGet (Gate.preserveRoot t cid now).nodes cid = some child' ∧
      child'.indexed = root.indexed ∧ child'.content = root.content := by
  obtain ⟨parent, hparent⟩ := Option.isSome_iff_exists.mp hp
  have hbind : alGet (Gate.preserveRoot t cid now).nodes cid =
      some { { Forest.NewNode root.content (parent.depth + 1) "" cid now with
          parentId := root.id } with
        sources := ({ Forest.NewNode root.content (parent.depth + 1) "" cid
            now with parentId := root.id } : Forest.Node).sources ++
          root.sources
        frequency := root.frequency
        weight := root.weight
        created := root.created
        lastAccessed := root.lastAccessed
        indexed := root.indexed } := by
    unfold Gate.preserveRoot
    rw [hroot]
    dsimp only
    rw [if_pos hleaf]
    unfold Forest.Tree.AddChild
    rw [hparent]
    dsimp only
    rw [show ({ Forest.NewNode root.content (parent.depth + 1) "" cid now with
      parentId := root.id } : Forest.Node).id = cid from rfl]
    rw [alGet_alSet_self]
  exact ⟨_, hbind, rfl, rfl⟩

/-- C3: the Indexed-flag discipline of the current revision, stated for
each of the gate's operations.  (i) A new tree's root is marked indexed.
(ii) A child inserted by `AddChild` and marked through the returned
pointer is an indexed leaf after the subsequent `bubbleUp` (branch and
extend insertions).  (iii) `preserveRoot`'s copy of a leaf root inherits
the root's content and index flag.  (iv) Every node binding `bubbleUp`
rewrites is marked not indexed (others are unchanged).  (v) Leaf bindings
are untouched by `bubbleUp`.  (vi) Eviction reports for corpus cleanup
only the contents of indexed nodes of the forest it prunes. -/
theorem c3_indexed_flag_discipline :
    (∀ (g : Gate.GateState) (fuel : ℕ) (cls : Gate.Classification)
      (content source id1 id2 : String) (now : Int),
      cls.action = Gate.Action.new →
      ∀ r, ((Gate.apply g fuel cls content source id1 id2
          now).forest.trees.getLast?.getD Forest.junkTree).Root = some r →
        r.indexed = true) ∧
    (∀ (t : Forest.Tree) (pid content source cid : String) (now : Int)
      (k : Int) (fuel : ℕ) (nid : String),
      (alGet t.nodes pid).isSome →
      ∃ child', alGet (Gate.bubbleUp k fuel (Gate.markChildIndexed
          (t.AddChild pid content source cid now)) nid).nodes cid =
        some child' ∧ child'.indexed = true ∧ child'.IsLeaf = true) ∧
    (∀ (t : Forest.Tree) (cid : String) (now : Int) (root : Forest.Node),
      t.Root = some root → root.IsLeaf = true →
      (alGet t.nodes root.id).isSome →
      ∃ child', alGet (Gate.preserveRoot t cid now).nodes cid =
        some child' ∧ child'.indexed = root.indexed ∧
        child'.content = root.content) ∧
    (∀ (k : Int) (fuel : ℕ) (t : Forest.Tree) (nid id : String)
      (n' : Forest.Node),
      alGet (Gate.bubbleUp k fuel t nid).nodes id = some n' →
      alGet t.nodes id = some n' ∨ n'.indexed = false) ∧
    (∀ (k : Int) (fuel : ℕ) (t : Forest.Tree) (nid id : String)
      (n : Forest.Node),
      alGet t.nodes id = some n → n.IsLeaf = true →
      alGet (Gate.bubbleUp k fuel t nid).nodes id = some n) ∧
    (∀ (f : Forest.Forest) (m : Int) (d : ℚ) (now : Int) (s : String),
      s ∈ (Forest.Forest.Prune f m d now).2 → HasIndexedContent f s) :=
  ⟨fun g fuel cls content source id1 id2 now hact =>
      apply_new_root_indexed g fuel cls content source id1 id2 now hact,
    fun t pid content source cid now k fuel nid hp =>
      insertion_marks_indexed t pid content source cid now k fuel nid hp,
    fun t cid now root hroot hleaf hp =>
      preserveRoot_copy t cid now root hroot hleaf hp,
    fun k fuel t nid id n' h => bubbleUp_binding k fuel t nid id n' h,
    fun k fuel t nid id n h hl => bubbleUp_leaf_binding k fuel t nid id n h hl,
    fun f m d now s hs => prune_reports_indexed f m d now s hs⟩

/-- The C3 witness tree: a fresh single-node tree. -/
def c3tree : Forest.Tree := Forest.NewTree "auth jwt" "p1" "t1" "r1" 0

/-- Witness for C3: inserting a child under the root of a concrete tree
and bubbling up leaves an indexed leaf bound to the child id. -/
theorem c3_indexed_flag_discipline_witness :
    (alGet c3tree.nodes "r1").isSome ∧
    ∃ child', alGet (Gate.bubbleUp 6 2 (Gate.markChildIndexed
        (c3tree.AddChild "r1" "fix jwt" "p2" "c1" 5)) "r1").nodes "c1" =
      some child' ∧ child'.indexed = true ∧ child'.IsLeaf = true :=
  ⟨by decide, c3_indexed_flag_discipline.2.1 c3tree "r1" "fix jwt" "p2" "c1"
    5 6 2 "r1" (by decide)⟩

end FocusGate
